import Mathlib

/-!
Verification of the TF-IDF indexing and retrieval engine of the repository
(`memory/rag/indexer.py` and `memory/rag/retriever.py`).

Python dictionaries are modelled as association lists with insertion order
(`List (κ × α)` with unique keys): Python dict insertion puts a fresh key at
the end and updates an existing key in place, which the `dinsert` operation
below reproduces.  Strings are modelled as `List Char`.  Floating point
numbers produced by `math.log` and `math.sqrt` are idealized as values of an
arbitrary linear ordered commutative ring `R` (a linear ordered field `K`
where the retriever divides), with the transcendental operations kept
abstract in a `FloatOps` record, so every theorem quantifies over the
possible interpretations of those operations.
-/

namespace TfidfRag

abbrev Str := List Char

/-! ### Association lists: the Python dict model -/

section Dict

variable {κ : Type} {α : Type} [DecidableEq κ]

/-- Lookup of a key, Python `d.get(k)` / `d[k]`. -/
def dlookup (k : κ) : List (κ × α) → Option α
  | [] => none
  | (k', v) :: rest => if k' = k then some v else dlookup k rest

/-- Membership test, Python `k in d`. -/
def dmem (k : κ) (l : List (κ × α)) : Bool :=
  (dlookup k l).isSome

/-- Python `d[k] = v`: update in place if the key exists, else append. -/
def dinsert (k : κ) (v : α) : List (κ × α) → List (κ × α)
  | [] => [(k, v)]
  | (k', v') :: rest => if k' = k then (k, v) :: rest else (k', v') :: dinsert k v rest

/-- Python `d.pop(k, None)`: drop the entry for the key, if any. -/
def derase (k : κ) : List (κ × α) → List (κ × α)
  | [] => []
  | (k', v') :: rest => if k' = k then rest else (k', v') :: derase k rest

/-- The keys of an association list, in order. -/
def dkeys (l : List (κ × α)) : List κ :=
  l.map Prod.fst

end Dict

/-! ### Tokenizer (`indexer.tokenize`)

The source tokenizer is `re.findall(r"[A-Za-z0-9']+", text)` followed by
`.lower()` on each token: maximal runs of ASCII letters, digits and
apostrophes, lowercased. -/

/-- Characters matched by the regex `[A-Za-z0-9']+` of `indexer._WORD_RE`. -/
def isWordChar (c : Char) : Bool :=
  (('A' ≤ c && c ≤ 'Z') || ('a' ≤ c && c ≤ 'z') || ('0' ≤ c && c ≤ '9')
    || c = '\x27')

/-- ASCII lowercasing, the effect of Python `str.lower` on the ASCII-only
tokens produced by the word regex. -/
def lowerChar (c : Char) : Char :=
  if 'A' ≤ c && c ≤ 'Z' then Char.ofNat (c.toNat + 32) else c

/-- Collect the maximal word-character runs of a string, in order. -/
def wordRuns : Str → List Str
  | [] => []
  | c :: rest =>
    if isWordChar c then
      match wordRuns rest with
      | [] => [[c]]
      | r :: rs =>
        match rest with
        | [] => [[c]]
        | c' :: _ => if isWordChar c' then (c :: r) :: rs else [c] :: (r :: rs)
    else
      wordRuns rest

/-- Source `tokenize`: word-regex matches, each lowercased. -/
def tokenize (text : Str) : List Str :=
  (wordRuns text).map (fun w => w.map lowerChar)

/-! ### Index data model (`indexer.TfidfIndex`) -/

/-- Source `DocMeta` dataclass.  `mtime` is a float in the source, idealized
as a rational. -/
structure DocMeta where
  doc_id : Str
  source : Str
  title : Option Str
  tags : Option (List Str)
  mtime : Option ℚ
  hash : Option Str
  deriving DecidableEq

/-- One value of the `docs` dict: `{"meta": ..., "len": ..., "text": ...}`. -/
structure DocRec where
  meta : DocMeta
  len : ℕ
  text : Str
  deriving DecidableEq

/-- The mutable state of `TfidfIndex`: `docs`, `inv`, `df`, `n_docs`. -/
structure TfidfIndex where
  docs : List (Str × DocRec)
  inv : List (Str × List (Str × ℕ))
  df : List (Str × ℕ)
  n_docs : ℕ
  deriving DecidableEq

/-- Fresh index, `TfidfIndex.__init__`. -/
def emptyIndex : TfidfIndex :=
  { docs := [], inv := [], df := [], n_docs := 0 }

/-- Term-frequency counting: `tf[t] = tf.get(t, 0) + 1` over the token list,
accumulating into a dict in first-occurrence order. -/
def countTf (toks : List Str) : List (Str × ℕ) :=
  toks.foldl (fun acc t => dinsert t ((dlookup t acc).getD 0 + 1) acc) []

/-- The posting/df update loop of `add_text`: for each `(term, cnt)` the
bucket `inv.setdefault(term, {})` receives `bucket[doc_id] = cnt` and
`df[term] = len(bucket)`. -/
def addPostings (doc_id : Str) :
    List (Str × ℕ) → List (Str × List (Str × ℕ)) → List (Str × ℕ) →
    List (Str × List (Str × ℕ)) × List (Str × ℕ)
  | [], inv, df => (inv, df)
  | (term, cnt) :: rest, inv, df =>
    let bucket := (dlookup term inv).getD []
    let bucket' := dinsert doc_id cnt bucket
    addPostings doc_id rest (dinsert term bucket' inv) (dinsert term bucket'.length df)

/-- The loop body of `_remove_doc_terms`: walk the inverted index in order;
whenever the document posts for a term, drop its posting, delete the term
entirely when the bucket empties, and otherwise refresh `df[term]`.  The
`df` dict is threaded left to right exactly as the source mutates it. -/
def removePostings (doc_id : Str) :
    List (Str × List (Str × ℕ)) → List (Str × ℕ) →
    List (Str × List (Str × ℕ)) × List (Str × ℕ)
  | [], df => ([], df)
  | (term, ps) :: rest, df =>
    if dmem doc_id ps then
      let ps' := derase doc_id ps
      if ps' = [] then
        removePostings doc_id rest (derase term df)
      else
        let r := removePostings doc_id rest (dinsert term ps'.length df)
        ((term, ps') :: r.1, r.2)
    else
      let r := removePostings doc_id rest df
      ((term, ps) :: r.1, r.2)

/-- Source `TfidfIndex._remove_doc_terms`. -/
def removeDocTerms (idx : TfidfIndex) (doc_id : Str) : TfidfIndex :=
  if ¬ dmem doc_id idx.docs then idx
  else
    let r := removePostings doc_id idx.inv idx.df
    let docs' := derase doc_id idx.docs
    { docs := docs', inv := r.1, df := r.2, n_docs := docs'.length }

/-- Source `TfidfIndex.add_text`.  Note the order of operations: the falsy
check on `text` comes first, the removal of an existing document second, and
the emptiness check on the token list only third. -/
def add_text (idx : TfidfIndex) (doc_id : Str) (text : Str) (meta : DocMeta) :
    TfidfIndex :=
  if text = [] then idx
  else
    let idx1 := if dmem doc_id idx.docs then removeDocTerms idx doc_id else idx
    let toks := tokenize text
    if toks = [] then idx1
    else
      let tf := countTf toks
      let r := addPostings doc_id tf idx1.inv idx1.df
      let docs' := dinsert doc_id ⟨meta, toks.length, text⟩ idx1.docs
      { docs := docs', inv := r.1, df := r.2, n_docs := docs'.length }

/-! ### Index invariants (spec §3)

`Invariant` packages the data-model invariants of the spec together with
well-formedness of the dict encoding (unique keys — automatic for Python
dicts). -/

/-- Well-formedness of the dict encoding: all key lists are duplicate-free. -/
structure DictWf (idx : TfidfIndex) : Prop where
  docsNodup : (dkeys idx.docs).Nodup
  invNodup : (dkeys idx.inv).Nodup
  dfNodup : (dkeys idx.df).Nodup
  bucketNodup : ∀ t ps, dlookup t idx.inv = some ps → (dkeys ps).Nodup

/-- The data-model invariants: `df[t] == |inverted[t]|`, no empty postings
map, postings only reference stored documents, and `n_docs == |documents|`. -/
structure Invariant (idx : TfidfIndex) : Prop where
  wf : DictWf idx
  dfEq : ∀ t ps, dlookup t idx.inv = some ps → dlookup t idx.df = some ps.length
  bucketNe : ∀ t ps, dlookup t idx.inv = some ps → ps ≠ []
  closed : ∀ t ps, dlookup t idx.inv = some ps → ∀ d ∈ dkeys ps, d ∈ dkeys idx.docs
  nDocs : idx.n_docs = idx.docs.length

/-! ### Scorer (`TfidfIndex.search`)

The float results of `math.log` and `1.0 / math.sqrt` are kept abstract:
`FloatOps R` records an interpretation of them in an arbitrary linear
ordered field, and every statement about `search` quantifies over it. -/

/-- Abstract interpretation of the floating-point helpers of the source:
`lg q` models `math.log` applied to the exact rational value `q` that the
source computes as the argument, `invSqrt L` models `1.0 / math.sqrt(L)`,
and `round4` models `round(float(score), 4)`. -/
structure FloatOps (R : Type) where
  lg : ℚ → R
  invSqrt : ℕ → R
  round4 : R → R

variable {R : Type} [LinearOrderedCommRing R]

/-- Source `idf[t] = math.log((1 + self.n_docs) / (1 + df)) + 1.0`. -/
def idfVal (F : FloatOps R) (n dfv : ℕ) : R :=
  F.lg ((1 + (n : ℚ)) / (1 + (dfv : ℚ))) + 1

/-- Document length as the scorer reads it: `self.docs[doc_id]["len"]`. -/
def docLen (idx : TfidfIndex) (d : Str) : ℕ :=
  ((dlookup d idx.docs).map DocRec.len).getD 0

/-- Inner scoring loop over one term's postings: each posting adds
`wq * wd` to the document's accumulated score and caches the document's
length normalization on first contact. -/
def scorePostings (F : FloatOps R) (wq idf_t : R) (idx : TfidfIndex) :
    List (Str × ℕ) → List (Str × R) → List (Str × R) →
    List (Str × R) × List (Str × R)
  | [], scores, norms => (scores, norms)
  | (d, dcnt) :: rest, scores, norms =>
    let wd := (1 + F.lg (dcnt : ℚ)) * idf_t
    let scores' := dinsert d ((dlookup d scores).getD 0 + wq * wd) scores
    let norms' :=
      if dmem d norms then norms
      else dinsert d (F.invSqrt (max 1 (docLen idx d))) norms
    scorePostings F wq idf_t idx rest scores' norms'

/-- Outer scoring loop over the query term counts; a term whose postings
are missing or falsy (`if not postings`) is skipped. -/
def scoreTerms (F : FloatOps R) (idx : TfidfIndex) :
    List (Str × ℕ) → List (Str × R) → List (Str × R) →
    List (Str × R) × List (Str × R)
  | [], scores, norms => (scores, norms)
  | (term, qcnt) :: rest, scores, norms =>
    match dlookup term idx.inv with
    | none => scoreTerms F idx rest scores norms
    | some ps =>
      if ps = [] then scoreTerms F idx rest scores norms
      else
        let idf_t := idfVal F idx.n_docs ((dlookup term idx.df).getD 0)
        let wq := (1 + F.lg (qcnt : ℚ)) * idf_t
        let r := scorePostings F wq idf_t idx ps scores norms
        scoreTerms F idx rest r.1 r.2

/-- The length-normalization pass: `scores[d] = s * doc_len_norm.get(d, 1.0)`
applied to every accumulated entry, in place. -/
def applyNorm (scores norms : List (Str × R)) : List (Str × R) :=
  scores.map (fun e => (e.1, e.2 * ((dlookup e.1 norms).getD 1)))

/-- The complete score map computed by `search` before ranking. -/
def searchScores (F : FloatOps R) (idx : TfidfIndex) (q : Str) : List (Str × R) :=
  let r := scoreTerms F idx (countTf (tokenize q)) [] []
  applyNorm r.1 r.2

/-- One step of a stable descending insertion: the new element goes after
every element whose key is at least as large.  This is the semantics of
Python `sorted(..., key=..., reverse=True)`, which is a stable sort. -/
def insertDescBy {α : Type} (key : α → R) (x : α) : List α → List α
  | [] => [x]
  | y :: ys => if key x ≤ key y then y :: insertDescBy key x ys else x :: y :: ys

/-- Stable descending sort by key (Python `sorted(..., reverse=True)`). -/
def pySortDescBy {α : Type} (key : α → R) (l : List α) : List α :=
  l.foldl (fun acc x => insertDescBy key x acc) []

/-! Snippet machinery of the indexer (`make_snippet`). -/

/-- Python whitespace for `str.strip` / `str.rstrip`. -/
def isPyWs (c : Char) : Bool :=
  c = ' ' || c = '\t' || c = '\n' || c = '\r' || c = '\x0b' || c = '\x0c'

/-- Python `s.lstrip()`. -/
def lstripStr (s : Str) : Str := s.dropWhile isPyWs

/-- Python `s.rstrip()`. -/
def rstripStr (s : Str) : Str := (s.reverse.dropWhile isPyWs).reverse

/-- Python `s.strip()`. -/
def stripStr (s : Str) : Str := rstripStr (lstripStr s)

/-- Lowercasing of a whole string (ASCII idealization of `str.lower`). -/
def lowerStr (s : Str) : Str := s.map lowerChar

/-- Substring test at a fixed offset. -/
def matchAt (hay pat : Str) (i : ℕ) : Bool :=
  decide ((hay.drop i).take pat.length = pat)

/-- Python `hay.find(pat)`: index of the first occurrence, if any. -/
def strFind (hay pat : Str) : Option ℕ :=
  (List.range (hay.length + 1)).find? (fun i => matchAt hay pat i)

/-- Python `s.replace("\n", " ")`. -/
def replaceNl (s : Str) : Str :=
  s.map (fun c => if c = '\n' then ' ' else c)

/-- The horizontal-ellipsis character the source appends to snippets. -/
def hellip : Char := '…'

/-- The token loop of `make_snippet`: the first query token found in the
lowercased text yields a window of `radius` characters on both sides, with
ellipsis markers when the window is clipped; if no token matches, the first
`2 * radius` characters are used. -/
def snippetLoop (radius : ℕ) (text low : Str) : List Str → Str
  | [] =>
    let s := stripStr (replaceNl (text.take (2 * radius)))
    if 2 * radius < text.length then s ++ [hellip] else s
  | qt :: rest =>
    match strFind low (lowerStr qt) with
    | some i =>
      let start := i - radius
      let stop := min text.length (i + qt.length + radius)
      let snip := stripStr (replaceNl ((text.drop start).take (stop - start)))
      let snip2 := if 0 < start then hellip :: snip else snip
      if stop < text.length then snip2 ++ [hellip] else snip2
    | none => snippetLoop radius text low rest

/-- Source `make_snippet` (with its default radius of 60 passed explicitly
by the callers in this file). -/
def make_snippet (radius : ℕ) (text : Str) (query_tokens : List Str) : Str :=
  if text = [] then []
  else snippetLoop radius text (lowerStr text) query_tokens

/-- Source `Hit` dataclass. -/
structure Hit (R : Type) where
  doc_id : Str
  score : R
  source : Str
  snippet : Str
  title : Option Str
  tags : Option (List Str)
  deriving DecidableEq

/-- Formatting of one ranked entry into a `Hit`, as in the tail of
`search`: the score is rounded to four decimals (`round4`). -/
def mkHit (F : FloatOps R) (idx : TfidfIndex) (q_toks : List Str) (e : Str × R) :
    Hit R :=
  let d := (dlookup e.1 idx.docs).getD ⟨⟨[], [], none, none, none, none⟩, 0, []⟩
  { doc_id := e.1, score := F.round4 e.2, source := d.meta.source,
    snippet := make_snippet 60 d.text q_toks,
    title := d.meta.title, tags := d.meta.tags }

/-- The ranked `(doc_id, score)` list of `search`:
`sorted(scores.items(), key=lambda kv: kv[1], reverse=True)[:k]`. -/
def searchRanked (F : FloatOps R) (idx : TfidfIndex) (q : Str) (k : ℕ) :
    List (Str × R) :=
  (pySortDescBy (fun e => e.2) (searchScores F idx q)).take k

/-- Source `TfidfIndex.search`. -/
def search (F : FloatOps R) (idx : TfidfIndex) (q : Str) (k : ℕ) : List (Hit R) :=
  let q_toks := tokenize q
  if q_toks = [] ∨ idx.n_docs = 0 then []
  else (searchRanked F idx q k).map (mkHit F idx q_toks)

/-! ### Persistence (`TfidfIndex.save` / `TfidfIndex.load`)

The JSON file is modelled at the data level: `SavedFile` is the parsed
content of the file, with `Option` marking the fields whose absence the
loader tolerates (`meta` per document, and the top-level `n_docs`). -/

/-- One serialized document entry. -/
structure SavedDoc where
  meta : Option DocMeta
  len : ℕ
  text : Str
  deriving DecidableEq

/-- The parsed content of a persisted index file. -/
structure SavedFile where
  docs : List (Str × SavedDoc)
  inv : List (Str × List (Str × ℕ))
  df : List (Str × ℕ)
  n_docs : Option ℕ
  saved_at : ℚ
  deriving DecidableEq

/-- Source `TfidfIndex.save`, at the data level: the dictionary written as
JSON (dict insertion order is preserved by `json.dumps`/`json.loads`). -/
def save (idx : TfidfIndex) (now : ℚ) : SavedFile :=
  { docs := idx.docs.map (fun e => (e.1, ⟨some e.2.meta, e.2.len, e.2.text⟩)),
    inv := idx.inv, df := idx.df, n_docs := some idx.n_docs, saved_at := now }

/-- Source `TfidfIndex.load` on a successfully parsed file: documents are
rebuilt (with a stub meta when absent), `inv` and `df` are copied, and
`n_docs` is `int(data.get("n_docs", len(idx.docs)))`. -/
def load (f : SavedFile) : TfidfIndex :=
  { docs := f.docs.map (fun e =>
      (e.1, ⟨(e.2.meta).getD ⟨e.1, ("unknown".toList), none, none, none, none⟩,
             e.2.len, e.2.text⟩)),
    inv := f.inv, df := f.df,
    n_docs := (f.n_docs).getD f.docs.length }

/-! Trace-level model of the file operations `save` performs, for the
atomic-write claim. -/

/-- Filesystem operations relevant to `save`. -/
inductive FsOp where
  | mkdirParents (dir : Str)
  | writeFile (path : Str) (data : SavedFile)
  | renameFile (src dst : Str)
  deriving DecidableEq

/-- Parent directory of a path (`path.parent`). -/
def dirName (p : Str) : Str :=
  let pre := (p.reverse.dropWhile (fun c => ¬ c = '/')).reverse
  if pre = [] then ['.'] else pre.dropLast

/-- The exact sequence of filesystem operations `save` performs:
`path.parent.mkdir(parents=True, exist_ok=True)` followed by a single
direct `path.write_text(...)`. -/
def saveOps (idx : TfidfIndex) (now : ℚ) (path : Str) : List FsOp :=
  [FsOp.mkdirParents (dirName path), FsOp.writeFile path (save idx now)]

/-- An operation sequence follows the atomic-write discipline for a target
file when the serialized data never reaches the target through a direct
write (it may only appear there through a rename of a temporary file). -/
def atomicWriteDiscipline (target : Str) (ops : List FsOp) : Prop :=
  ∀ op ∈ ops, ∀ p data, op = FsOp.writeFile p data → p ≠ target

/-! ### `TfidfIndex.add_file`

File reading, `sha256` hashing and `stat` are effects outside the index;
they enter the model as parameters: `fs` maps a path to the file's content
and stat information when the path refers to an existing regular file, and
`sha256` is the content-hash function. -/

/-- What `add_file` observes about an existing regular file. -/
structure FileInfo where
  text : Str
  mtime : ℚ
  resolved : Str
  name : Str

/-- Python `a or b` for optional strings (`doc_id or ...`, `title or ...`):
`None` and the empty string are both falsy. -/
def orDefaultStr (o : Option Str) (dflt : Str) : Str :=
  match o with
  | none => dflt
  | some s => if s = [] then dflt else s

/-- Source `TfidfIndex.add_file`: returns the possibly-updated index and
the return value (`None` when the path is not a regular file). -/
def add_file (fs : Str → Option FileInfo) (sha256 : Str → Str)
    (idx : TfidfIndex) (path : Str) (doc_id : Option Str)
    (title : Option Str) (tags : Option (List Str)) :
    TfidfIndex × Option Str :=
  match fs path with
  | none => (idx, none)
  | some fi =>
    let text := fi.text
    let h := sha256 text
    let did := orDefaultStr doc_id fi.resolved
    let unchanged :=
      match dlookup did idx.docs with
      | some prev =>
        decide (prev.meta.hash = some h) && decide (prev.meta.mtime = some fi.mtime)
      | none => false
    if unchanged then (idx, some did)
    else
      let meta : DocMeta :=
        ⟨did, fi.resolved, some (orDefaultStr title fi.name), tags,
         some fi.mtime, some h⟩
      (add_text idx did text meta, some did)

/-! ### Retriever (`memory/rag/retriever.py`) -/

/-- Source `Passage` dataclass (`end` is spelled `stop` here, `end` being a
keyword). -/
structure Passage (R : Type) where
  doc_id : Str
  source : Str
  title : Option Str
  tags : Option (List Str)
  score : R
  start : ℕ
  stop : ℕ
  text : Str
  snippet : Str
  deriving DecidableEq

/-- Source `Filters` dataclass. -/
structure Filters where
  title_contains : Option Str
  require_tags : Option (List Str)

/-- Python substring containment `needle in hay`. -/
def containsSub (hay needle : Str) : Bool :=
  (strFind hay needle).isSome

/-- Source `_find_all`: starting indices of all case-insensitive matches of
`term` in `text`, in increasing order (the source steps the search by one,
so overlapping occurrences are all reported). -/
def findAll (term text : Str) : List ℕ :=
  if term = [] ∨ text = [] then []
  else (List.range text.length).filter (fun i => matchAt (lowerStr text) (lowerStr term) i)

/-- Source `_extract_passage`: a window around the earliest query-token
match (clamped), or the first `window` characters when nothing matches;
returns `(start, end, stripped slice)`. -/
def extractPassage (text : Str) (q_tokens : List Str) (window overlap : ℕ) :
    ℕ × ℕ × Str :=
  if text = [] then (0, 0, [])
  else
    let hitPositions := (q_tokens.map (fun qt => findAll qt text)).flatten
    if hitPositions = [] then
      let stop := min text.length window
      (0, stop, stripStr (text.take stop))
    else
      let i := (hitPositions.min?).getD 0
      let start := i - overlap
      let stop := min text.length (start + window)
      (start, stop, stripStr ((text.drop start).take (stop - start)))

/-- The snippet expression of `retrieve`:
`passage_text if len(passage_text) <= 220 else passage_text[:220].rstrip() + "…"`. -/
def passageSnippet (t : Str) : Str :=
  if t.length ≤ 220 then t else rstripStr (t.take 220) ++ [hellip]

/-- Source `_apply_filters`. -/
def applyFilters (hits : List (Hit R)) (idx : TfidfIndex) (f : Filters) :
    List (Hit R) :=
  let want_title := lowerStr (stripStr ((f.title_contains).getD []))
  let want_tags := ((f.require_tags).getD []).filterMap
    (fun t => if stripStr t = [] then none else some (lowerStr (stripStr t)))
  hits.filter (fun h =>
    match dlookup h.doc_id idx.docs with
    | none => false
    | some d =>
      let titleOk :=
        if want_title = [] then true
        else containsSub (lowerStr ((d.meta.title).getD [])) want_title
      let tagsOk :=
        if want_tags = [] then true
        else want_tags.all (fun w => decide (w ∈ ((d.meta.tags).getD []).map lowerStr))
      titleOk && tagsOk)

/-- Python `dict.fromkeys`: deduplicate preserving first-occurrence order. -/
def dedupKeepOrder (l : List Str) : List Str :=
  l.foldl (fun acc t => if t ∈ acc then acc else acc ++ [t]) []

/-- The `word_positions` helper of `_rerank_by_proximity`: word-level
positions of `term` among the lowercased word-regex matches of `text`. -/
def wordPositions (text : Str) (term : Str) : List ℕ :=
  (((tokenize text).enum).filter (fun e => decide (e.2 = term))).map Prod.fst

/-- Stable ascending insertion for naturals (Python `sorted`). -/
def insertAscNat (x : ℕ) : List ℕ → List ℕ
  | [] => [x]
  | y :: ys => if y ≤ x then y :: insertAscNat x ys else x :: y :: ys

/-- Python `sorted` on a list of naturals. -/
def sortAscNat (l : List ℕ) : List ℕ :=
  l.foldl (fun acc x => insertAscNat x acc) []

/-- The `proximity_bonus` helper of `_rerank_by_proximity`. -/
def proximityBonus {K : Type} [LinearOrderedField K] (q_unique : List Str) (p : Passage K) : K :=
  let pos_lists := q_unique.map (wordPositions p.text)
  if pos_lists.all (fun ps => decide (ps = [])) then 0
  else
    let reps := pos_lists.map (fun ps => ps.headD 999999)
    let med := sortAscNat (reps.filter (fun x => decide (¬ x = 999999)))
    if med = [] then 0
    else
      let mid := med.getD (med.length / 2) 0
      let sumDist : ℕ :=
        (reps.map (fun x =>
          ((if x = 999999 then (mid : ℤ) else (x : ℤ)) - (mid : ℤ)).natAbs)).sum
      let avg : K := (sumDist : K) / ((max 1 reps.length : ℕ) : K)
      max 0 ((1 / 4 : K) * (1 - (min avg 10) / 10))

/-- Source `_rerank_by_proximity`: each passage is rebuilt with only its
score adjusted by the proximity bonus. -/
def rerankByProximity {K : Type} [LinearOrderedField K] (passages : List (Passage K)) (q_tokens : List Str) :
    List (Passage K) :=
  let q_unique := dedupKeepOrder q_tokens
  if q_unique = [] then passages
  else passages.map (fun p => { p with score := p.score + proximityBonus q_unique p })

/-- Source `retrieve`, over an already-loaded index (the source loads the
same path for the document store and for `index_search`). -/
def retrieve {K : Type} [LinearOrderedField K] (F : FloatOps K) (idx : TfidfIndex) (query : Str) (k : ℕ)
    (filters : Option Filters) (passage_chars passage_overlap : ℕ)
    (enable_rerank : Bool) : List (Passage K) :=
  if idx.n_docs = 0 ∨ stripStr query = [] then []
  else
    let hits := search F idx query (max (k * 3) k)
    let hits2 := match filters with
      | none => hits
      | some f => applyFilters hits idx f
    let q_tokens := tokenize query
    let passages := hits2.filterMap (fun h =>
      match dlookup h.doc_id idx.docs with
      | none => none
      | some doc =>
        let r := extractPassage doc.text q_tokens passage_chars passage_overlap
        some { doc_id := h.doc_id, source := doc.meta.source,
               title := doc.meta.title, tags := doc.meta.tags,
               score := h.score, start := r.1, stop := r.2.1,
               text := r.2.2, snippet := passageSnippet r.2.2 })
    if passages = [] then []
    else
      let passages2 :=
        if enable_rerank then rerankByProximity passages q_tokens else passages
      (pySortDescBy (fun p => p.score) passages2).take k

/-! ### Definitions supporting the claim statements -/

/-- Whether a document carries at least one of the given terms, read off
the inverted index. -/
def sharesIn (idx : TfidfIndex) (d : Str) (ts : List (Str × ℕ)) : Bool :=
  ts.any (fun e => dmem d ((dlookup e.1 idx.inv).getD []))

/-- Whether a document shares at least one term with the query. -/
def sharesQueryTerm (idx : TfidfIndex) (q : Str) (d : Str) : Bool :=
  sharesIn idx d (countTf (tokenize q))

/-- The contribution of one query term `e = (term, tf_in_query)` to a
document's score, per the spec formula (§4.4):
`(1 + ln tf_q) * idf(t)` times `(1 + ln tf_d) * idf(t)` when the document
carries the term, and zero otherwise — in particular zero for query terms
absent from the corpus. -/
def termContrib (F : FloatOps R) (idx : TfidfIndex) (d : Str) (e : Str × ℕ) : R :=
  match dlookup d ((dlookup e.1 idx.inv).getD []) with
  | some dcnt =>
    ((1 + F.lg ((e.2 : ℕ) : ℚ)) * idfVal F idx.n_docs ((dlookup e.1 idx.df).getD 0)) *
      ((1 + F.lg ((dcnt : ℕ) : ℚ)) * idfVal F idx.n_docs ((dlookup e.1 idx.df).getD 0))
  | none => 0

/-- The score the spec formula (§4.4) assigns to a document: the sum of the
per-term contributions over the query term counts, scaled by
`1 / sqrt(max(1, document_length))`.  This definition follows the spec
wording; the theorems compare it with `searchScores`, which follows the
source. -/
def specScore (F : FloatOps R) (idx : TfidfIndex) (q : Str) (d : Str) : R :=
  ((countTf (tokenize q)).map (termContrib F idx d)).sum *
    F.invSqrt (max 1 (docLen idx d))

/-- The state `add_text` assembles on the non-trivial path, written as a
function of the post-removal state: document record inserted, postings and
`df` updated by the term loop, `n_docs` recomputed. -/
def addFreshState (S0 : TfidfIndex) (i : Str) (rec : DocRec)
    (tf : List (Str × ℕ)) : TfidfIndex :=
  { docs := dinsert i rec S0.docs,
    inv := (addPostings i tf S0.inv S0.df).1,
    df := (addPostings i tf S0.inv S0.df).2,
    n_docs := (dinsert i rec S0.docs).length }

/-- Index equality as Python dict equality observes it: same stored
documents, same posting count per term and document, same document
frequencies, same document count.  Insertion order may differ. -/
def ExtEq (a b : TfidfIndex) : Prop :=
  (∀ d, dlookup d a.docs = dlookup d b.docs) ∧
  (∀ t d, dlookup d ((dlookup t a.inv).getD []) = dlookup d ((dlookup t b.inv).getD [])) ∧
  (∀ t, dlookup t a.df = dlookup t b.df) ∧
  a.n_docs = b.n_docs

/-- Executable check of the atomic-write discipline: no direct write may
target the final file. -/
def atomicWriteCheck (target : Str) (ops : List FsOp) : Bool :=
  ops.all (fun op =>
    match op with
    | FsOp.writeFile p _ => decide (¬ p = target)
    | _ => true)

/-- Lexical (strict) order on strings, Python `<` on `str` restricted to
the ASCII identifiers used here. -/
def strLt : Str → Str → Bool
  | [], [] => false
  | [], _ :: _ => true
  | _ :: _, [] => false
  | x :: xs, y :: ys => if x < y then true else if x = y then strLt xs ys else false

/-! Concrete fixtures used by witnesses and counterexamples. -/

/-- A dummy interpretation of the float operations over `ℚ`, used to
evaluate the retriever on concrete inputs. -/
def F0 : FloatOps ℚ := ⟨fun _ => 0, fun _ => 1, id⟩

/-- A dummy interpretation of the float operations over `ℤ`; integer
arithmetic evaluates inside the kernel, which `ℚ` does not. -/
def F0i : FloatOps ℤ := ⟨fun _ => 0, fun _ => 1, id⟩

/-- Inline metadata fixture. -/
def metaA : DocMeta := ⟨("a".toList), ("inline".toList), none, none, none, none⟩

/-- Inline metadata fixture. -/
def metaB : DocMeta := ⟨("b".toList), ("inline".toList), none, none, none, none⟩

/-- Two identical one-word documents, `"b"` ingested before `"a"`: a
score-tie fixture. -/
def idxTie : TfidfIndex :=
  add_text (add_text emptyIndex ("b".toList) ("x".toList) metaB)
    ("a".toList) ("x".toList) metaA

/-- A parsed index file whose stored `n_docs` (5) disagrees with its single
stored document. -/
def staleFile : SavedFile :=
  { docs := [(("d".toList), ⟨some metaA, 1, ("x".toList)⟩)],
    inv := [(("x".toList), [(("d".toList), 1)])],
    df := [(("x".toList), 1)],
    n_docs := some 5,
    saved_at := 0 }

/-- A one-document index holding the word `hello`. -/
def idxHello : TfidfIndex :=
  add_text emptyIndex ("d".toList) ("hello".toList) metaA

/-- A document that is one 221-character word. -/
def longWord : Str := List.replicate 221 'a'

/-- Index holding the single long-word document. -/
def idxLong : TfidfIndex :=
  add_text emptyIndex ("d".toList) longWord metaA

/-- A two-word document fixture for retrieval witnesses. -/
def idxGreet : TfidfIndex :=
  add_text emptyIndex ("g".toList) ("hi world".toList) metaB

/-- An interpretation of the float operations over `ℚ` that collapses every
value to zero, so concrete retrieval runs stay kernel-reducible. -/
def F0z : FloatOps ℚ := ⟨fun _ => 0, fun _ => 0, fun _ => 0⟩

/-- Default passage used with `List.headD` in concrete statements. -/
def dfltPassage : Passage ℚ := ⟨[], [], none, none, 0, 0, 0, [], []⟩

/-! ## Theorems -/

section DictLemmas

variable {κ : Type} {α : Type} [DecidableEq κ]

@[simp] theorem dlookup_nil (k : κ) : dlookup k ([] : List (κ × α)) = none := rfl

theorem dlookup_cons (k k' : κ) (v : α) (l : List (κ × α)) :
    dlookup k ((k', v) :: l) = if k' = k then some v else dlookup k l := rfl

@[simp] theorem dlookup_dinsert_self (k : κ) (v : α) (l : List (κ × α)) :
    dlookup k (dinsert k v l) = some v := by
  induction l with
  | nil => simp [dinsert, dlookup]
  | cons hd tl ih =>
    obtain ⟨k', v'⟩ := hd
    by_cases h : k' = k <;> simp [dinsert, dlookup, h, ih]

theorem dlookup_dinsert_ne (k k₀ : κ) (v : α) (l : List (κ × α)) (hne : k ≠ k₀) :
    dlookup k₀ (dinsert k v l) = dlookup k₀ l := by
  induction l with
  | nil => simp [dinsert, dlookup, hne]
  | cons hd tl ih =>
    obtain ⟨k', v'⟩ := hd
    by_cases h : k' = k
    · subst h
      simp [dinsert, dlookup, hne]
    · simp [dinsert, dlookup, h, ih]

theorem dlookup_dinsert (k k₀ : κ) (v : α) (l : List (κ × α)) :
    dlookup k₀ (dinsert k v l) = if k = k₀ then some v else dlookup k₀ l := by
  by_cases h : k = k₀
  · subst h; simp
  · simp [h, dlookup_dinsert_ne k k₀ v l h]

theorem dlookup_derase_ne (k k₀ : κ) (l : List (κ × α)) (hne : k ≠ k₀) :
    dlookup k₀ (derase k l) = dlookup k₀ l := by
  induction l with
  | nil => rfl
  | cons hd tl ih =>
    obtain ⟨k', v'⟩ := hd
    by_cases h : k' = k
    · subst h
      simp [derase, dlookup, hne]
    · simp [derase, dlookup, h, ih]

theorem dlookup_isSome_iff_mem_dkeys (k : κ) (l : List (κ × α)) :
    (dlookup k l).isSome = true ↔ k ∈ dkeys l := by
  induction l with
  | nil => simp [dkeys]
  | cons hd tl ih =>
    obtain ⟨k', v'⟩ := hd
    simp only [dkeys, List.map, List.mem_cons]
    by_cases h : k' = k
    · subst h
      simp [dlookup]
    · simp only [dlookup, if_neg h]
      rw [ih]
      simp only [dkeys]
      constructor
      · intro hm; exact Or.inr hm
      · intro hm
        rcases hm with hm | hm
        · exact absurd hm.symm h
        · exact hm

theorem dlookup_eq_none_iff (k : κ) (l : List (κ × α)) :
    dlookup k l = none ↔ k ∉ dkeys l := by
  rw [← dlookup_isSome_iff_mem_dkeys]
  cases dlookup k l <;> simp

theorem mem_dkeys_dinsert (k k₀ : κ) (v : α) (l : List (κ × α)) :
    k₀ ∈ dkeys (dinsert k v l) ↔ k₀ ∈ dkeys l ∨ k₀ = k := by
  induction l with
  | nil => simp [dinsert, dkeys, eq_comm]
  | cons hd tl ih =>
    obtain ⟨k', v'⟩ := hd
    by_cases h : k' = k
    · subst h
      simp [dinsert, dkeys] at *
      tauto
    · simp [dinsert, dkeys, h] at *
      tauto

theorem dkeys_derase_sublist (k : κ) (l : List (κ × α)) :
    List.Sublist (dkeys (derase k l)) (dkeys l) := by
  induction l with
  | nil => simp [derase, dkeys]
  | cons hd tl ih =>
    obtain ⟨k', v'⟩ := hd
    by_cases h : k' = k
    · subst h
      simp only [derase, if_pos rfl, dkeys, List.map]
      exact List.sublist_cons_self _ _
    · simp only [derase, if_neg h, dkeys, List.map]
      exact ih.cons₂ _

theorem nodup_dkeys_dinsert (k : κ) (v : α) (l : List (κ × α))
    (h : (dkeys l).Nodup) : (dkeys (dinsert k v l)).Nodup := by
  induction l with
  | nil => simp [dinsert, dkeys]
  | cons hd tl ih =>
    obtain ⟨k', v'⟩ := hd
    simp only [dkeys, List.map, List.nodup_cons] at h
    by_cases hk : k' = k
    · subst hk
      simpa [dinsert, dkeys, List.nodup_cons] using h
    · have := ih h.2
      simp only [dinsert, if_neg hk, dkeys, List.map, List.nodup_cons]
      refine ⟨?_, this⟩
      intro hmem
      rcases (mem_dkeys_dinsert k k' v tl).1 hmem with h1 | h1
      · exact h.1 h1
      · exact hk h1

theorem nodup_dkeys_derase (k : κ) (l : List (κ × α))
    (h : (dkeys l).Nodup) : (dkeys (derase k l)).Nodup :=
  (dkeys_derase_sublist k l).nodup h

theorem dlookup_derase_self (k : κ) (l : List (κ × α))
    (h : (dkeys l).Nodup) : dlookup k (derase k l) = none := by
  induction l with
  | nil => rfl
  | cons hd tl ih =>
    obtain ⟨k', v'⟩ := hd
    simp only [dkeys, List.map, List.nodup_cons] at h
    by_cases hk : k' = k
    · subst hk
      simp only [derase, if_pos rfl]
      rw [dlookup_eq_none_iff]
      exact h.1
    · simp only [derase, if_neg hk, dlookup, if_neg hk]
      exact ih h.2

theorem derase_dinsert_of_not_mem (k : κ) (v : α) (l : List (κ × α))
    (h : k ∉ dkeys l) : derase k (dinsert k v l) = l := by
  induction l with
  | nil => simp [dinsert, derase]
  | cons hd tl ih =>
    obtain ⟨k', v'⟩ := hd
    simp only [dkeys, List.map, List.mem_cons] at h
    push_neg at h
    have hk : k' ≠ k := fun hh => h.1 hh.symm
    simp only [dinsert, if_neg hk, derase, if_neg hk]
    rw [ih h.2]

theorem length_dinsert_of_not_mem (k : κ) (v : α) (l : List (κ × α))
    (h : k ∉ dkeys l) : (dinsert k v l).length = l.length + 1 := by
  induction l with
  | nil => simp [dinsert]
  | cons hd tl ih =>
    obtain ⟨k', v'⟩ := hd
    simp only [dkeys, List.map, List.mem_cons] at h
    push_neg at h
    have hk : k' ≠ k := fun hh => h.1 hh.symm
    simp only [dinsert, if_neg hk, List.length_cons]
    rw [ih h.2]

theorem dlookup_map_value (k : κ) (g : κ → α → α) (l : List (κ × α)) :
    dlookup k (l.map (fun e => (e.1, g e.1 e.2))) = (dlookup k l).map (g k) := by
  induction l with
  | nil => rfl
  | cons hd tl ih =>
    obtain ⟨k', v'⟩ := hd
    by_cases h : k' = k
    · subst h; simp [dlookup]
    · simp [dlookup, h, ih]

theorem dinsert_ne_nil (k : κ) (v : α) (l : List (κ × α)) : dinsert k v l ≠ [] := by
  cases l with
  | nil => simp [dinsert]
  | cons hd tl =>
    obtain ⟨k', v'⟩ := hd
    by_cases h : k' = k <;> simp [dinsert, h]

theorem mem_dkeys_of_dlookup_eq_some (k : κ) (v : α) (l : List (κ × α))
    (h : dlookup k l = some v) : k ∈ dkeys l := by
  rw [← dlookup_isSome_iff_mem_dkeys, h]
  rfl

end DictLemmas

theorem invariant_emptyIndex : Invariant emptyIndex := by
  refine ⟨⟨?_, ?_, ?_, ?_⟩, ?_, ?_, ?_, ?_⟩ <;> simp [emptyIndex, dkeys, dlookup]

/-! ### Persistence round-trip -/

theorem load_save (idx : TfidfIndex) (now : ℚ) : load (save idx now) = idx := by
  cases idx with
  | mk docs inv df n =>
    simp only [load, save, List.map_map, Option.getD_some, TfidfIndex.mk.injEq,
      and_true, true_and]
    induction docs with
    | nil => rfl
    | cons e rest ih =>
      simpa [Function.comp] using ih

/-- C2: for every index (in particular any index built by `add_text`,
`add_file` and remove operations), loading the file written by `save`
reproduces the index exactly, so `search` returns the same ranked
`(doc_id, score)` results for every query, every `k` and every
interpretation of the float operations. -/
theorem c2_save_load_roundtrip (F : FloatOps R) (idx : TfidfIndex) (now : ℚ)
    (q : Str) (k : ℕ) :
    load (save idx now) = idx ∧
    search F (load (save idx now)) q k = search F idx q k := by
  refine ⟨load_save idx now, ?_⟩
  rw [load_save idx now]

/-! ### Loading and the stored `n_docs` (claim C6) -/

/-- C6 counterexample: on a parsed file whose stored `n_docs` is 5 but which
holds exactly one document, `load` sets `n_docs` to the stored 5, not to the
recomputed document count — the claim is false as stated. -/
theorem c6_load_ndocs_counterexample :
    (load staleFile).n_docs = 5 ∧ (load staleFile).docs.length = 1 ∧
    ¬ (load staleFile).n_docs = (load staleFile).docs.length := by
  refine ⟨rfl, rfl, by decide⟩

/-- C6 amended: `load` rebuilds `documents`, `inverted` and `df` verbatim
from the parsed file, and trusts the stored `n_docs` whenever the field is
present, falling back to the loaded document count only when it is absent;
for files produced by `save` from an index satisfying the invariants, the
invariants hold after loading. -/
theorem c6_load_amended (idx : TfidfIndex) (now : ℚ) (f : SavedFile) (m : ℕ)
    (h1 : Invariant idx) (h2 : f.n_docs = some m) :
    Invariant (load (save idx now)) ∧ (load f).n_docs = m ∧
    (load f).inv = f.inv ∧ (load f).df = f.df := by
  refine ⟨?_, ?_, rfl, rfl⟩
  · rw [load_save]; exact h1
  · simp [load, h2]

theorem c6_load_amended_witness :
    Invariant (load (save emptyIndex 0)) ∧ (load staleFile).n_docs = 5 ∧
    (load staleFile).inv = staleFile.inv ∧ (load staleFile).df = staleFile.df :=
  c6_load_amended emptyIndex 0 staleFile 5 invariant_emptyIndex rfl

/-! ### `add_text` on empty or token-free text (claim C7) -/

/-- C7 counterexample: on an index holding document `d`, `add_text` with the
whitespace-only text `" "` is not a no-op — the existing document is removed
(the removal happens before the empty-token-list check), so the claim is
false as stated. -/
theorem c7_empty_text_counterexample :
    ¬ add_text idxHello ("d".toList) [' '] metaA = idxHello ∧
    (add_text idxHello ("d".toList) [' '] metaA).docs = [] ∧
    ¬ idxHello.docs = [] := by
  refine ⟨by decide, by decide, by decide⟩

/-- C7 amended: when the text tokenizes to no tokens, `add_text` stores
nothing; the call leaves the index unchanged when the text is empty (falsy)
or when no document with that id exists, but when the text is non-empty and
the id is already present, the existing document is first removed and the
call returns that removed state. -/
theorem c7_empty_text_amended (idx : TfidfIndex) (i : Str) (txt : Str)
    (m : DocMeta) (htok : tokenize txt = []) :
    (txt = [] → add_text idx i txt m = idx) ∧
    (dmem i idx.docs = false → add_text idx i txt m = idx) ∧
    (txt ≠ [] → dmem i idx.docs = true →
      add_text idx i txt m = removeDocTerms idx i) := by
  refine ⟨?_, ?_, ?_⟩
  · intro h; simp [add_text, h]
  · intro h
    by_cases ht : txt = []
    · simp [add_text, ht]
    · simp [add_text, ht, h, htok]
  · intro ht h
    simp [add_text, ht, h, htok]

theorem c7_empty_text_amended_witness :
    tokenize [' '] = [] ∧ add_text emptyIndex ("d".toList) [' '] metaA = emptyIndex :=
  ⟨by decide, (c7_empty_text_amended emptyIndex ("d".toList) [' '] metaA (by decide)).2.1 (by decide)⟩

/-! ### `save` writes the target directly (claim C9) -/

/-- C9: the operation trace of `save` is a `mkdir` of the parent followed by
one direct `write_text` of the serialized data to the target path; no
temporary file and no rename occur, so the atomic-write discipline the
claim requires is violated for every index, every timestamp and every
path. -/
theorem c9_save_write_not_atomic (idx : TfidfIndex) (now : ℚ) (path : Str) :
    saveOps idx now path =
      [FsOp.mkdirParents (dirName path), FsOp.writeFile path (save idx now)] ∧
    atomicWriteCheck path (saveOps idx now path) = false ∧
    ¬ atomicWriteDiscipline path (saveOps idx now path) := by
  refine ⟨rfl, by simp [saveOps, atomicWriteCheck], ?_⟩
  intro h
  exact (h (FsOp.writeFile path (save idx now)) (by simp [saveOps]) path
    (save idx now) rfl) rfl

/-! ### `add_file` on a missing file (claim C10) -/

/-- C10: when the path does not refer to an existing regular file,
`add_file` returns `None` and leaves the index unchanged. -/
theorem c10_add_file_missing_noop (fs : Str → Option FileInfo)
    (sha256 : Str → Str) (idx : TfidfIndex) (path : Str) (doc_id : Option Str)
    (title : Option Str) (tags : Option (List Str)) (h : fs path = none) :
    add_file fs sha256 idx path doc_id title tags = (idx, none) := by
  simp [add_file, h]

theorem c10_add_file_missing_noop_witness :
    add_file (fun _ => none) (fun s => s) emptyIndex ("p".toList) none none none
      = (emptyIndex, none) :=
  c10_add_file_missing_noop (fun _ => none) (fun s => s) emptyIndex ("p".toList)
    none none none rfl

/-! ### The stable descending sort of `search` and `retrieve` -/

section SortLemmas

variable {α : Type} (key : α → R)

theorem insertDescBy_perm (x : α) (l : List α) :
    (insertDescBy key x l).Perm (x :: l) := by
  induction l with
  | nil => simp [insertDescBy]
  | cons y ys ih =>
    by_cases h : key x ≤ key y
    · simp only [insertDescBy, if_pos h]
      exact (ih.cons y).trans (List.Perm.swap x y ys)
    · simp [insertDescBy, if_neg h]

theorem mem_insertDescBy_self (x : α) (l : List α) : x ∈ insertDescBy key x l :=
  (insertDescBy_perm key x l).mem_iff.2 (List.mem_cons_self x l)

theorem sublist_insertDescBy (x : α) (l : List α) :
    List.Sublist l (insertDescBy key x l) := by
  induction l with
  | nil => simp [insertDescBy]
  | cons y ys ih =>
    by_cases h : key x ≤ key y
    · simp only [insertDescBy, if_pos h]
      exact ih.cons₂ y
    · simp only [insertDescBy, if_neg h]
      exact (List.sublist_cons_self x (y :: ys))

theorem pairwise_insertDescBy (x : α) (l : List α)
    (h : l.Pairwise (fun a b => key b ≤ key a)) :
    (insertDescBy key x l).Pairwise (fun a b => key b ≤ key a) := by
  induction l with
  | nil => simp [insertDescBy]
  | cons y ys ih =>
    rw [List.pairwise_cons] at h
    by_cases hxy : key x ≤ key y
    · simp only [insertDescBy, if_pos hxy, List.pairwise_cons]
      refine ⟨?_, ih h.2⟩
      intro b hb
      rcases List.mem_cons.1 ((insertDescBy_perm key x ys).mem_iff.1 hb) with hb | hb
      · subst hb; exact hxy
      · exact h.1 b hb
    · simp only [insertDescBy, if_neg hxy, List.pairwise_cons]
      have hyx : key y ≤ key x := le_of_not_le hxy
      refine ⟨?_, h⟩
      intro b hb
      rcases List.mem_cons.1 hb with hb | hb
      · subst hb; exact hyx
      · exact (h.1 b hb).trans hyx

theorem sublist_pair_insertDescBy (x a : α) (l : List α)
    (h : l.Pairwise (fun a b => key b ≤ key a)) (ha : a ∈ l)
    (hk : key x ≤ key a) :
    List.Sublist [a, x] (insertDescBy key x l) := by
  induction l with
  | nil => cases ha
  | cons y ys ih =>
    rw [List.pairwise_cons] at h
    by_cases hxy : key x ≤ key y
    · simp only [insertDescBy, if_pos hxy]
      rcases List.mem_cons.1 ha with ha | ha
      · subst ha
        exact (List.singleton_sublist.2 (mem_insertDescBy_self key x ys)).cons₂ a
      · exact (ih h.2 ha).cons y
    · exfalso
      rcases List.mem_cons.1 ha with ha | ha
      · subst ha; exact hxy hk
      · exact hxy (hk.trans (h.1 a ha))

theorem pySortDescBy_append_singleton (l : List α) (x : α) :
    pySortDescBy key (l ++ [x]) = insertDescBy key x (pySortDescBy key l) := by
  simp [pySortDescBy, List.foldl_append]

theorem pySortDescBy_perm (l : List α) : (pySortDescBy key l).Perm l := by
  induction l using List.reverseRecOn with
  | nil => rfl
  | append_singleton l x ih =>
    rw [pySortDescBy_append_singleton]
    exact ((insertDescBy_perm key x (pySortDescBy key l)).trans
      (ih.cons x)).trans (List.perm_append_singleton x l).symm

theorem pySortDescBy_pairwise (l : List α) :
    (pySortDescBy key l).Pairwise (fun a b => key b ≤ key a) := by
  induction l using List.reverseRecOn with
  | nil => simp [pySortDescBy]
  | append_singleton l x ih =>
    rw [pySortDescBy_append_singleton]
    exact pairwise_insertDescBy key x _ ih

theorem pySortDescBy_stable (a b : α) (l : List α) (hkey : key a = key b)
    (h : List.Sublist [a, b] l) :
    List.Sublist [a, b] (pySortDescBy key l) := by
  induction l using List.reverseRecOn with
  | nil => cases h
  | append_singleton l x ih =>
    rw [pySortDescBy_append_singleton]
    rw [List.sublist_append_iff] at h
    obtain ⟨l₁, l₂, hsplit, h₁, h₂⟩ := h
    rcases l₁ with _ | ⟨a', l₁t⟩
    · exfalso
      simp only [List.nil_append] at hsplit
      subst hsplit
      have := h₂.length_le
      simp at this
    · rcases l₁t with _ | ⟨b', l₁tt⟩
      · simp only [List.cons_append, List.nil_append, List.cons.injEq] at hsplit
        obtain ⟨ha, hl₂⟩ := hsplit
        subst ha
        subst hl₂
        have hbx : b = x := by simpa using List.singleton_sublist.1 h₂
        subst hbx
        have hamem : a ∈ pySortDescBy key l :=
          (pySortDescBy_perm key l).mem_iff.2 (List.singleton_sublist.1 h₁)
        exact sublist_pair_insertDescBy key b a _ (pySortDescBy_pairwise key l)
          hamem (le_of_eq hkey.symm)
      · simp only [List.cons_append, List.cons.injEq] at hsplit
        obtain ⟨ha, hb, ht⟩ := hsplit
        have ht1 : l₁tt = [] := by
          cases l₁tt with
          | nil => rfl
          | cons u us => simp at ht
        subst ha
        subst hb
        subst ht1
        exact (ih h₁).trans (sublist_insertDescBy key x _)

theorem two_mem_order (a b : α) (l : List α) (ha : a ∈ l) (hb : b ∈ l)
    (hne : a ≠ b) :
    List.Sublist [a, b] l ∨ List.Sublist [b, a] l := by
  induction l with
  | nil => cases ha
  | cons y ys ih =>
    rcases List.mem_cons.1 ha with hay | hay
    · subst hay
      have hbys : b ∈ ys := by
        rcases List.mem_cons.1 hb with hby | hby
        · exact absurd hby.symm hne
        · exact hby
      exact Or.inl ((List.singleton_sublist.2 hbys).cons₂ a)
    · rcases List.mem_cons.1 hb with hby | hby
      · subst hby
        exact Or.inr ((List.singleton_sublist.2 hay).cons₂ b)
      · rcases ih hay hby with h | h
        · exact Or.inl (h.cons y)
        · exact Or.inr (h.cons y)

theorem not_both_orders (a b : α) (l : List α) (hnd : l.Nodup) (hne : a ≠ b)
    (h1 : List.Sublist [a, b] l) (h2 : List.Sublist [b, a] l) : False := by
  induction l with
  | nil => cases h1
  | cons y ys ih =>
    rw [List.nodup_cons] at hnd
    cases h1 with
    | cons₂ h1t =>
      cases h2 with
      | cons₂ h2t => exact hne rfl
      | cons _ h2t => exact hnd.1 (h2t.subset (by simp))
    | cons _ h1t =>
      cases h2 with
      | cons₂ h2t => exact hnd.1 (h1t.subset (by simp))
      | cons _ h2t => exact ih hnd.2 h1t h2t

end SortLemmas

/-! ### Keys of the score accumulator -/

theorem dkeys_applyNorm (s n : List (Str × R)) : dkeys (applyNorm s n) = dkeys s := by
  simp [applyNorm, dkeys, List.map_map, Function.comp]

theorem scorePostings_fst_nodup (F : FloatOps R) (wq idf_t : R) (idx : TfidfIndex)
    (ps : List (Str × ℕ)) (scores norms : List (Str × R))
    (h : (dkeys scores).Nodup) :
    (dkeys (scorePostings F wq idf_t idx ps scores norms).1).Nodup := by
  induction ps generalizing scores norms with
  | nil => exact h
  | cons e rest ih =>
    obtain ⟨d, dcnt⟩ := e
    exact ih _ _ (nodup_dkeys_dinsert _ _ _ h)

theorem scoreTerms_fst_nodup (F : FloatOps R) (idx : TfidfIndex)
    (ts : List (Str × ℕ)) (scores norms : List (Str × R))
    (h : (dkeys scores).Nodup) :
    (dkeys (scoreTerms F idx ts scores norms).1).Nodup := by
  induction ts generalizing scores norms with
  | nil => exact h
  | cons e rest ih =>
    obtain ⟨term, qcnt⟩ := e
    simp only [scoreTerms]
    cases hps : dlookup term idx.inv with
    | none => exact ih _ _ h
    | some ps =>
      by_cases hn : ps = []
      · simp only [hn, if_pos rfl]
        exact ih _ _ h
      · simp only [if_neg hn]
        exact ih _ _ (scorePostings_fst_nodup F _ _ idx ps scores norms h)

theorem searchScores_dkeys_nodup (F : FloatOps R) (idx : TfidfIndex) (q : Str) :
    (dkeys (searchScores F idx q)).Nodup := by
  rw [searchScores, dkeys_applyNorm]
  exact scoreTerms_fst_nodup F idx _ [] [] (by simp [dkeys])

theorem nodup_of_dkeys_nodup {β : Type} (l : List (Str × β))
    (h : (dkeys l).Nodup) : l.Nodup :=
  List.Nodup.of_map Prod.fst h

/-! ### Characterizing the ingestion loops -/

theorem countTf_aux_nodup (toks : List Str) (acc : List (Str × ℕ))
    (h : (dkeys acc).Nodup) :
    (dkeys (toks.foldl (fun acc t => dinsert t ((dlookup t acc).getD 0 + 1) acc) acc)).Nodup := by
  induction toks generalizing acc with
  | nil => exact h
  | cons t rest ih => exact ih _ (nodup_dkeys_dinsert _ _ _ h)

theorem countTf_dkeys_nodup (toks : List Str) : (dkeys (countTf toks)).Nodup :=
  countTf_aux_nodup toks [] (by simp [dkeys])

theorem addPostings_lookup (doc : Str) (tf : List (Str × ℕ))
    (inv : List (Str × List (Str × ℕ))) (df : List (Str × ℕ))
    (hnd : (dkeys tf).Nodup) (t : Str) :
    dlookup t (addPostings doc tf inv df).1 =
      (match dlookup t tf with
       | some cnt => some (dinsert doc cnt ((dlookup t inv).getD []))
       | none => dlookup t inv) ∧
    dlookup t (addPostings doc tf inv df).2 =
      (match dlookup t tf with
       | some cnt => some (dinsert doc cnt ((dlookup t inv).getD [])).length
       | none => dlookup t df) := by
  induction tf generalizing inv df with
  | nil => exact ⟨rfl, rfl⟩
  | cons e rest ih =>
    obtain ⟨term, cnt⟩ := e
    simp only [dkeys, List.map, List.nodup_cons] at hnd
    have hrest := ih (dinsert term (dinsert doc cnt ((dlookup term inv).getD [])) inv)
      (dinsert term (dinsert doc cnt ((dlookup term inv).getD [])).length df) hnd.2
    by_cases ht : term = t
    · subst ht
      have hnone : dlookup term rest = none :=
        (dlookup_eq_none_iff term rest).2 (by
          intro hmem
          exact hnd.1 (by simpa [dkeys] using hmem))
      simp only [addPostings]
      rw [hrest.1, hrest.2]
      simp [dlookup_cons, hnone]
    · simp only [addPostings]
      rw [hrest.1, hrest.2]
      constructor
      · simp only [dlookup_cons, if_neg ht]
        cases dlookup t rest with
        | none => simp [dlookup_dinsert_ne term t _ inv ht]
        | some c => simp [dlookup_dinsert_ne term t _ inv ht]
      · simp only [dlookup_cons, if_neg ht]
        cases dlookup t rest with
        | none => simp [dlookup_dinsert_ne term t _ df ht]
        | some c => simp [dlookup_dinsert_ne term t _ inv ht]

theorem addPostings_nodup (doc : Str) (tf : List (Str × ℕ))
    (inv : List (Str × List (Str × ℕ))) (df : List (Str × ℕ))
    (hinv : (dkeys inv).Nodup) (hdf : (dkeys df).Nodup) :
    (dkeys (addPostings doc tf inv df).1).Nodup ∧
    (dkeys (addPostings doc tf inv df).2).Nodup := by
  induction tf generalizing inv df with
  | nil => exact ⟨hinv, hdf⟩
  | cons e rest ih =>
    obtain ⟨term, cnt⟩ := e
    exact ih _ _ (nodup_dkeys_dinsert _ _ _ hinv) (nodup_dkeys_dinsert _ _ _ hdf)

theorem removePostings_lookup_not_mem (doc : Str)
    (inv : List (Str × List (Str × ℕ))) (df : List (Str × ℕ)) (t : Str)
    (h : t ∉ dkeys inv) :
    dlookup t (removePostings doc inv df).1 = none ∧
    dlookup t (removePostings doc inv df).2 = dlookup t df := by
  induction inv generalizing df with
  | nil => exact ⟨rfl, rfl⟩
  | cons e rest ih =>
    obtain ⟨term, ps⟩ := e
    simp only [dkeys, List.map, List.mem_cons] at h
    push_neg at h
    have hne : term ≠ t := fun hh => h.1 hh.symm
    cases hmem : dmem doc ps with
    | true =>
      by_cases hempty : derase doc ps = []
      · simp only [removePostings, hmem, if_pos hempty, if_true]
        have hrec := ih (derase term df) h.2
        exact ⟨hrec.1, by rw [hrec.2, dlookup_derase_ne term t df hne]⟩
      · simp only [removePostings, hmem, if_neg hempty, if_true]
        have hrec := ih (dinsert term (derase doc ps).length df) h.2
        refine ⟨?_, ?_⟩
        · simp only [dlookup_cons, if_neg hne]
          exact hrec.1
        · rw [hrec.2, dlookup_dinsert_ne term t _ df hne]
    | false =>
      simp only [removePostings, hmem, Bool.false_eq_true, if_false]
      have hrec := ih df h.2
      refine ⟨?_, hrec.2⟩
      simp only [dlookup_cons, if_neg hne]
      exact hrec.1

theorem removePostings_lookup (doc : Str)
    (inv : List (Str × List (Str × ℕ))) (df : List (Str × ℕ)) (t : Str)
    (hinv : (dkeys inv).Nodup) (hdf : (dkeys df).Nodup) :
    dlookup t (removePostings doc inv df).1 =
      (match dlookup t inv with
       | none => none
       | some ps =>
         if dmem doc ps then
           (if derase doc ps = [] then none else some (derase doc ps))
         else some ps) ∧
    dlookup t (removePostings doc inv df).2 =
      (match dlookup t inv with
       | none => dlookup t df
       | some ps =>
         if dmem doc ps then
           (if derase doc ps = [] then none else some (derase doc ps).length)
         else dlookup t df) := by
  induction inv generalizing df with
  | nil => exact ⟨rfl, rfl⟩
  | cons e rest ih =>
    obtain ⟨term, ps⟩ := e
    simp only [dkeys, List.map, List.nodup_cons] at hinv
    by_cases ht : term = t
    · subst ht
      have hnotrest : term ∉ dkeys rest := fun hm => hinv.1 (by simpa [dkeys] using hm)
      have hlook : dlookup term ((term, ps) :: rest) = some ps := by
        simp [dlookup_cons]
      cases hmem : dmem doc ps with
      | true =>
        by_cases hempty : derase doc ps = []
        · have aux := removePostings_lookup_not_mem doc rest (derase term df) term hnotrest
          refine ⟨?_, ?_⟩ <;>
            simp [removePostings, hmem, hempty, hlook, aux.1, aux.2,
              dlookup_derase_self term df hdf]
        · have aux := removePostings_lookup_not_mem doc rest
            (dinsert term (derase doc ps).length df) term hnotrest
          refine ⟨?_, ?_⟩ <;>
            simp [removePostings, hmem, hempty, hlook, aux.1, aux.2,
              dlookup_cons]
      | false =>
        have aux := removePostings_lookup_not_mem doc rest df term hnotrest
        refine ⟨?_, ?_⟩ <;>
          simp [removePostings, hmem, hlook, aux.1, aux.2, dlookup_cons]
    · have hlook : dlookup t ((term, ps) :: rest) = dlookup t rest := by
        simp [dlookup_cons, ht]
      cases hmem : dmem doc ps with
      | true =>
        by_cases hempty : derase doc ps = []
        · have hrec := ih (derase term df) hinv.2 (nodup_dkeys_derase term df hdf)
          simp only [removePostings, hmem, if_pos hempty, if_true, hlook]
          refine ⟨hrec.1, ?_⟩
          rw [hrec.2]
          cases dlookup t rest with
          | none => simp [dlookup_derase_ne term t df ht]
          | some ps0 => simp [dlookup_derase_ne term t df ht]
        · have hrec := ih (dinsert term (derase doc ps).length df) hinv.2
            (nodup_dkeys_dinsert term _ df hdf)
          simp only [removePostings, hmem, if_neg hempty, if_true, hlook]
          refine ⟨?_, ?_⟩
          · simp only [dlookup_cons, if_neg ht]
            exact hrec.1
          · rw [hrec.2]
            cases dlookup t rest with
            | none => simp [dlookup_dinsert_ne term t _ df ht]
            | some ps0 => simp [dlookup_dinsert_ne term t _ df ht]
      | false =>
        have hrec := ih df hinv.2 hdf
        simp only [removePostings, hmem, Bool.false_eq_true, if_false, hlook]
        refine ⟨?_, hrec.2⟩
        simp only [dlookup_cons, if_neg ht]
        exact hrec.1

theorem removePostings_inv_keys_sublist (doc : Str)
    (inv : List (Str × List (Str × ℕ))) (df : List (Str × ℕ)) :
    List.Sublist (dkeys (removePostings doc inv df).1) (dkeys inv) := by
  induction inv generalizing df with
  | nil => simp [removePostings, dkeys]
  | cons e rest ih =>
    obtain ⟨term, ps⟩ := e
    cases hmem : dmem doc ps with
    | true =>
      by_cases hempty : derase doc ps = []
      · simp only [removePostings, hmem, if_pos hempty, if_true, dkeys, List.map]
        exact (ih (derase term df)).trans (List.sublist_cons_self _ _)
      · simp only [removePostings, hmem, if_neg hempty, if_true, dkeys, List.map]
        exact (ih (dinsert term (derase doc ps).length df)).cons₂ _
    | false =>
      simp only [removePostings, hmem, Bool.false_eq_true, if_false, dkeys, List.map]
      exact (ih df).cons₂ _

theorem removePostings_df_nodup (doc : Str)
    (inv : List (Str × List (Str × ℕ))) (df : List (Str × ℕ))
    (hdf : (dkeys df).Nodup) :
    (dkeys (removePostings doc inv df).2).Nodup := by
  induction inv generalizing df with
  | nil => exact hdf
  | cons e rest ih =>
    obtain ⟨term, ps⟩ := e
    cases hmem : dmem doc ps with
    | true =>
      by_cases hempty : derase doc ps = []
      · simp only [removePostings, hmem, if_pos hempty, if_true]
        exact ih _ (nodup_dkeys_derase term df hdf)
      · simp only [removePostings, hmem, if_neg hempty, if_true]
        exact ih _ (nodup_dkeys_dinsert term _ df hdf)
    | false =>
      simp only [removePostings, hmem, Bool.false_eq_true, if_false]
      exact ih _ hdf

/-! ### Invariant preservation -/

theorem mem_dkeys_derase_of_ne {β : Type} (k d : Str) (l : List (Str × β))
    (hd : d ∈ dkeys l) (hne : d ≠ k) : d ∈ dkeys (derase k l) := by
  rw [← dlookup_isSome_iff_mem_dkeys] at hd ⊢
  rw [dlookup_derase_ne k d l (fun hh => hne hh.symm)]
  exact hd

theorem not_mem_dkeys_derase_self {β : Type} (k : Str) (l : List (Str × β))
    (hnd : (dkeys l).Nodup) : k ∉ dkeys (derase k l) := by
  rw [← dlookup_isSome_iff_mem_dkeys, dlookup_derase_self k l hnd]
  simp

theorem not_mem_dkeys_of_dmem_false {β : Type} (k : Str) (l : List (Str × β))
    (h : dmem k l = false) : k ∉ dkeys l := by
  rw [← dlookup_isSome_iff_mem_dkeys]
  simp only [dmem] at h
  simp [h]

theorem invariant_removeDocTerms (idx : TfidfIndex) (d : Str)
    (h : Invariant idx) : Invariant (removeDocTerms idx d) := by
  by_cases hdm : dmem d idx.docs
  case neg => simpa [removeDocTerms, hdm] using h
  case pos =>
    simp only [removeDocTerms, hdm, not_true_eq_false, if_false]
    have hlk := fun t => removePostings_lookup d idx.inv idx.df t
      h.wf.invNodup h.wf.dfNodup
    refine ⟨⟨?_, ?_, ?_, ?_⟩, ?_, ?_, ?_, rfl⟩
    · exact nodup_dkeys_derase d idx.docs h.wf.docsNodup
    · exact (removePostings_inv_keys_sublist d idx.inv idx.df).nodup h.wf.invNodup
    · exact removePostings_df_nodup d idx.inv idx.df h.wf.dfNodup
    · intro t ps' hlook
      rw [(hlk t).1] at hlook
      cases heq : dlookup t idx.inv with
      | none => rw [heq] at hlook; cases hlook
      | some ps =>
        rw [heq] at hlook
        by_cases hm : dmem d ps
        · by_cases he : derase d ps = []
          · simp [hm, he] at hlook
          · simp only [hm, if_pos he, if_true, he, if_false] at hlook
            have := h.wf.bucketNodup t ps heq
            simp only [hm, if_true, if_neg he, Option.some.injEq] at hlook
            rw [← hlook]
            exact nodup_dkeys_derase d ps this
        · simp only [hm, Bool.false_eq_true, if_false, Option.some.injEq] at hlook
          rw [← hlook]
          exact h.wf.bucketNodup t ps heq
    · intro t ps' hlook
      rw [(hlk t).1] at hlook
      rw [(hlk t).2]
      cases heq : dlookup t idx.inv with
      | none => rw [heq] at hlook; cases hlook
      | some ps =>
        rw [heq] at hlook
        by_cases hm : dmem d ps
        · by_cases he : derase d ps = []
          · simp [hm, he] at hlook
          · simp only [hm, if_true, if_neg he, Option.some.injEq] at hlook
            simp only [hm, if_true, if_neg he]
            rw [hlook]
        · simp only [hm, Bool.false_eq_true, if_false, Option.some.injEq] at hlook
          simp only [hm, Bool.false_eq_true, if_false]
          rw [h.dfEq t ps heq, hlook]
    · intro t ps' hlook
      rw [(hlk t).1] at hlook
      cases heq : dlookup t idx.inv with
      | none => rw [heq] at hlook; cases hlook
      | some ps =>
        rw [heq] at hlook
        by_cases hm : dmem d ps
        · by_cases he : derase d ps = []
          · simp [hm, he] at hlook
          · simp only [hm, if_true, if_neg he, Option.some.injEq] at hlook
            rw [← hlook]
            exact he
        · simp only [hm, Bool.false_eq_true, if_false, Option.some.injEq] at hlook
          rw [← hlook]
          exact h.bucketNe t ps heq
    · intro t ps' hlook d' hd'
      rw [(hlk t).1] at hlook
      cases heq : dlookup t idx.inv with
      | none => rw [heq] at hlook; cases hlook
      | some ps =>
        rw [heq] at hlook
        by_cases hm : dmem d ps
        · by_cases he : derase d ps = []
          · simp [hm, he] at hlook
          · simp only [hm, if_true, if_neg he, Option.some.injEq] at hlook
            rw [← hlook] at hd'
            have hps : d' ∈ dkeys ps := (dkeys_derase_sublist d ps).subset hd'
            have hne : d' ≠ d := by
              intro hh
              subst hh
              exact not_mem_dkeys_derase_self d' ps (h.wf.bucketNodup t ps heq) hd'
            exact mem_dkeys_derase_of_ne d d' idx.docs
              (h.closed t ps heq d' hps) hne
        · simp only [hm, Bool.false_eq_true, if_false, Option.some.injEq] at hlook
          rw [← hlook] at hd'
          have hne : d' ≠ d := by
            intro hh
            subst hh
            exact not_mem_dkeys_of_dmem_false d' ps (by simpa using hm) hd'
          exact mem_dkeys_derase_of_ne d d' idx.docs
            (h.closed t ps heq d' hd') hne

theorem invariant_addPostings_state (idx : TfidfIndex) (i : Str) (rec : DocRec)
    (tf : List (Str × ℕ)) (htf : (dkeys tf).Nodup)
    (h : Invariant idx) :
    Invariant { docs := dinsert i rec idx.docs,
                inv := (addPostings i tf idx.inv idx.df).1,
                df := (addPostings i tf idx.inv idx.df).2,
                n_docs := (dinsert i rec idx.docs).length } := by
  have hlk := fun t => addPostings_lookup i tf idx.inv idx.df htf t
  have hnd := addPostings_nodup i tf idx.inv idx.df h.wf.invNodup h.wf.dfNodup
  refine ⟨⟨?_, ?_, ?_, ?_⟩, ?_, ?_, ?_, rfl⟩
  · exact nodup_dkeys_dinsert i rec idx.docs h.wf.docsNodup
  · exact hnd.1
  · exact hnd.2
  · intro t ps hlook
    rw [(hlk t).1] at hlook
    cases hc : dlookup t tf with
    | none => rw [hc] at hlook; exact h.wf.bucketNodup t ps hlook
    | some cnt =>
      rw [hc] at hlook
      simp only [Option.some.injEq] at hlook
      rw [← hlook]
      apply nodup_dkeys_dinsert
      cases hb : dlookup t idx.inv with
      | none => simp [dkeys]
      | some ps0 => simpa [hb] using h.wf.bucketNodup t ps0 hb
  · intro t ps hlook
    rw [(hlk t).1] at hlook
    rw [(hlk t).2]
    cases hc : dlookup t tf with
    | none =>
      rw [hc] at hlook
      exact h.dfEq t ps hlook
    | some cnt =>
      rw [hc] at hlook
      simp only [Option.some.injEq] at hlook
      subst hlook
      rfl
  · intro t ps hlook
    rw [(hlk t).1] at hlook
    cases hc : dlookup t tf with
    | none => rw [hc] at hlook; exact h.bucketNe t ps hlook
    | some cnt =>
      rw [hc] at hlook
      simp only [Option.some.injEq] at hlook
      rw [← hlook]
      exact dinsert_ne_nil i cnt _
  · intro t ps hlook d' hd'
    rw [(hlk t).1] at hlook
    have hgoal : d' ∈ dkeys idx.docs ∨ d' = i →
        d' ∈ dkeys (dinsert i rec idx.docs) :=
      fun hh => (mem_dkeys_dinsert i d' rec idx.docs).2 hh
    cases hc : dlookup t tf with
    | none =>
      rw [hc] at hlook
      exact hgoal (Or.inl (h.closed t ps hlook d' hd'))
    | some cnt =>
      rw [hc] at hlook
      simp only [Option.some.injEq] at hlook
      rw [← hlook] at hd'
      rcases (mem_dkeys_dinsert i d' cnt _).1 hd' with hh | hh
      · cases hb : dlookup t idx.inv with
        | none => rw [hb] at hh; simp [dkeys] at hh
        | some ps0 =>
          rw [hb] at hh
          simp only [Option.getD_some] at hh
          exact hgoal (Or.inl (h.closed t ps0 hb d' hh))
      · exact hgoal (Or.inr hh)

theorem removeDocTerms_fresh (idx : TfidfIndex) (i : Str) (h : Invariant idx) :
    i ∉ dkeys (removeDocTerms idx i).docs ∧
    (∀ t ps, dlookup t (removeDocTerms idx i).inv = some ps → i ∉ dkeys ps) := by
  by_cases hdm : dmem i idx.docs
  · simp only [removeDocTerms, hdm, not_true_eq_false, if_false]
    constructor
    · exact not_mem_dkeys_derase_self i idx.docs h.wf.docsNodup
    · intro t ps hlook
      rw [(removePostings_lookup i idx.inv idx.df t h.wf.invNodup h.wf.dfNodup).1]
        at hlook
      cases heq : dlookup t idx.inv with
      | none => rw [heq] at hlook; cases hlook
      | some ps0 =>
        rw [heq] at hlook
        by_cases hm : dmem i ps0
        · by_cases he : derase i ps0 = []
          · simp [hm, he] at hlook
          · simp only [hm, if_true, if_neg he, Option.some.injEq] at hlook
            rw [← hlook]
            exact not_mem_dkeys_derase_self i ps0 (h.wf.bucketNodup t ps0 heq)
        · simp only [hm, Bool.false_eq_true, if_false, Option.some.injEq] at hlook
          rw [← hlook]
          exact not_mem_dkeys_of_dmem_false i ps0 (by simpa using hm)
  · simp only [removeDocTerms, hdm, not_false_eq_true, if_true]
    constructor
    · exact not_mem_dkeys_of_dmem_false i idx.docs (by simpa using hdm)
    · intro t ps hlook hmem
      exact not_mem_dkeys_of_dmem_false i idx.docs (by simpa using hdm)
        (h.closed t ps hlook i hmem)

theorem invariant_add_text (idx : TfidfIndex) (i : Str) (txt : Str) (m : DocMeta)
    (h : Invariant idx) : Invariant (add_text idx i txt m) := by
  by_cases htxt : txt = []
  · simpa [add_text, htxt] using h
  · have h1 : Invariant (if dmem i idx.docs then removeDocTerms idx i else idx) := by
      by_cases hdm : dmem i idx.docs
      · simpa [hdm] using invariant_removeDocTerms idx i h
      · simpa [hdm] using h
    by_cases htok : tokenize txt = []
    · simpa [add_text, htxt, htok] using h1
    · have := invariant_addPostings_state
        (if dmem i idx.docs then removeDocTerms idx i else idx) i
        ⟨m, (tokenize txt).length, txt⟩ (countTf (tokenize txt))
        (countTf_dkeys_nodup (tokenize txt)) h1
      simpa [add_text, htxt, htok] using this

/-- C3: on any index satisfying the data-model invariants (with the
well-formed dict encoding), both `add_text` (for every document id, text and
metadata) and the remove operation `_remove_doc_terms` (for every document
id) preserve all of them: `df[t] = |inverted[t]|` for every indexed term, no
term has an empty postings map, every posting references a stored document,
and `n_docs` equals the number of stored documents. -/
theorem c3_operations_preserve_invariants (idx : TfidfIndex) (h : Invariant idx) :
    (∀ i txt m, Invariant (add_text idx i txt m)) ∧
    (∀ d, Invariant (removeDocTerms idx d)) :=
  ⟨fun i txt m => invariant_add_text idx i txt m h,
   fun d => invariant_removeDocTerms idx d h⟩

theorem c3_operations_preserve_invariants_witness :
    Invariant (add_text emptyIndex ("d".toList) ("hello".toList) metaA) ∧
    Invariant (removeDocTerms emptyIndex ("d".toList)) :=
  ⟨(c3_operations_preserve_invariants emptyIndex invariant_emptyIndex).1
      ("d".toList) ("hello".toList) metaA,
   (c3_operations_preserve_invariants emptyIndex invariant_emptyIndex).2
      ("d".toList)⟩

/-! ### The scoring formula (claim C1) -/

theorem scorePostings_scores_lookup (F : FloatOps R) (wq idf_t : R)
    (idx : TfidfIndex) (ps : List (Str × ℕ)) (scores norms : List (Str × R))
    (hnd : (dkeys ps).Nodup) (d : Str) :
    dlookup d (scorePostings F wq idf_t idx ps scores norms).1 =
      (match dlookup d ps with
       | some dcnt =>
         some ((dlookup d scores).getD 0 + wq * ((1 + F.lg ((dcnt : ℕ) : ℚ)) * idf_t))
       | none => dlookup d scores) := by
  induction ps generalizing scores norms with
  | nil => rfl
  | cons e rest ih =>
    obtain ⟨d0, c0⟩ := e
    simp only [dkeys, List.map, List.nodup_cons] at hnd
    by_cases hd : d0 = d
    · subst hd
      have hnone : dlookup d0 rest = none :=
        (dlookup_eq_none_iff d0 rest).2 (fun hm => hnd.1 (by simpa [dkeys] using hm))
      simp only [scorePostings]
      rw [ih _ _ hnd.2, hnone]
      simp [dlookup_cons]
    · simp only [scorePostings]
      rw [ih _ _ hnd.2]
      cases hr : dlookup d rest with
      | some dcnt => simp [dlookup_cons, hd, hr, dlookup_dinsert, dlookup_dinsert_ne]
      | none => simp [dlookup_cons, hd, hr, dlookup_dinsert, dlookup_dinsert_ne]

theorem scorePostings_norms_lookup (F : FloatOps R) (wq idf_t : R)
    (idx : TfidfIndex) (ps : List (Str × ℕ)) (scores norms : List (Str × R))
    (d : Str) :
    dlookup d (scorePostings F wq idf_t idx ps scores norms).2 =
      (match dlookup d norms with
       | some v => some v
       | none =>
         if dmem d ps then some (F.invSqrt (max 1 (docLen idx d))) else none) := by
  induction ps generalizing scores norms with
  | nil => cases hn : dlookup d norms <;> simp [scorePostings, hn, dmem]
  | cons e rest ih =>
    obtain ⟨d0, c0⟩ := e
    by_cases hd : d0 = d
    · subst hd
      cases hn : dlookup d0 norms with
      | some v =>
        have hm : dmem d0 norms = true := by simp [dmem, hn]
        simp only [scorePostings, hm, if_true]
        rw [ih]
        simp [hn, dmem, dlookup_cons]
      | none =>
        have hm : dmem d0 norms = false := by simp [dmem, hn]
        simp only [scorePostings, hm, Bool.false_eq_true, if_false]
        rw [ih]
        simp [dmem, dlookup_cons]
    · have hcons : dmem d ((d0, c0) :: rest) = dmem d rest := by
        simp [dmem, dlookup_cons, hd]
      cases hm : dmem d0 norms with
      | true =>
        simp only [scorePostings, hm, if_true]
        rw [ih]
        rw [hcons]
      | false =>
        simp only [scorePostings, hm, Bool.false_eq_true, if_false]
        rw [ih]
        rw [dlookup_dinsert_ne d0 d _ norms hd, hcons]

theorem scoreTerms_scores_lookup (F : FloatOps R) (idx : TfidfIndex)
    (ts : List (Str × ℕ)) (scores norms : List (Str × R))
    (hb : ∀ t ps, dlookup t idx.inv = some ps → (dkeys ps).Nodup) (d : Str) :
    dlookup d (scoreTerms F idx ts scores norms).1 =
      (if (dlookup d scores).isSome = true ∨ sharesIn idx d ts = true
       then some ((dlookup d scores).getD 0 + (ts.map (termContrib F idx d)).sum)
       else none) := by
  induction ts generalizing scores norms with
  | nil =>
    cases hs : dlookup d scores with
    | some v => simp [scoreTerms, hs, sharesIn]
    | none => simp [scoreTerms, hs, sharesIn]
  | cons e rest ih =>
    obtain ⟨term, qcnt⟩ := e
    cases hlv : dlookup term idx.inv with
    | none =>
      simp only [scoreTerms, hlv]
      rw [ih _ _]
      have hc : termContrib F idx d (term, qcnt) = 0 := by
        simp [termContrib, hlv]
      have hshare : sharesIn idx d ((term, qcnt) :: rest) = sharesIn idx d rest := by
        simp [sharesIn, hlv, dmem]
      rw [hshare]
      simp [hc]
    | some ps =>
      by_cases hps : ps = []
      · subst hps
        simp only [scoreTerms, hlv, if_true]
        rw [ih _ _]
        have hc : termContrib F idx d (term, qcnt) = 0 := by
          simp [termContrib, hlv]
        have hshare : sharesIn idx d ((term, qcnt) :: rest) = sharesIn idx d rest := by
          simp [sharesIn, hlv, dmem]
        rw [hshare]
        simp [hc]
      · simp only [scoreTerms, hlv, if_neg hps]
        rw [ih _ _]
        have hsc := scorePostings_scores_lookup F
          ((1 + F.lg ((qcnt : ℕ) : ℚ)) * idfVal F idx.n_docs ((dlookup term idx.df).getD 0))
          (idfVal F idx.n_docs ((dlookup term idx.df).getD 0))
          idx ps scores norms (hb term ps hlv) d
        cases hdp : dlookup d ps with
        | some dcnt =>
          rw [hdp] at hsc
          rw [hsc]
          have hcontrib : termContrib F idx d (term, qcnt) =
              ((1 + F.lg ((qcnt : ℕ) : ℚ)) * idfVal F idx.n_docs ((dlookup term idx.df).getD 0)) *
                ((1 + F.lg ((dcnt : ℕ) : ℚ)) * idfVal F idx.n_docs ((dlookup term idx.df).getD 0)) := by
            simp [termContrib, hlv, hdp]
          have hshare : sharesIn idx d ((term, qcnt) :: rest) = true := by
            simp [sharesIn, hlv, dmem, hdp]
          rw [hshare]
          simp only [List.map, List.sum_cons, hcontrib, Option.isSome_some,
            Option.getD_some, true_or, or_true, if_true]
          rw [add_assoc]
        | none =>
          rw [hdp] at hsc
          rw [hsc]
          have hcontrib : termContrib F idx d (term, qcnt) = 0 := by
            simp [termContrib, hlv, hdp]
          have hshare : sharesIn idx d ((term, qcnt) :: rest) = sharesIn idx d rest := by
            simp [sharesIn, hlv, dmem, hdp]
          rw [hshare]
          simp [hcontrib]

theorem scoreTerms_norms_lookup (F : FloatOps R) (idx : TfidfIndex)
    (ts : List (Str × ℕ)) (scores norms : List (Str × R)) (d : Str) :
    dlookup d (scoreTerms F idx ts scores norms).2 =
      (match dlookup d norms with
       | some v => some v
       | none =>
         if sharesIn idx d ts then some (F.invSqrt (max 1 (docLen idx d))) else none) := by
  induction ts generalizing scores norms with
  | nil => cases hn : dlookup d norms <;> simp [scoreTerms, hn, sharesIn]
  | cons e rest ih =>
    obtain ⟨term, qcnt⟩ := e
    cases hlv : dlookup term idx.inv with
    | none =>
      simp only [scoreTerms, hlv]
      rw [ih _ _]
      have hshare : sharesIn idx d ((term, qcnt) :: rest) = sharesIn idx d rest := by
        simp [sharesIn, hlv, dmem]
      rw [hshare]
    | some ps =>
      by_cases hps : ps = []
      · subst hps
        simp only [scoreTerms, hlv, if_true]
        rw [ih _ _]
        have hshare : sharesIn idx d ((term, qcnt) :: rest) = sharesIn idx d rest := by
          simp [sharesIn, hlv, dmem]
        rw [hshare]
      · simp only [scoreTerms, hlv, if_neg hps]
        rw [ih _ _]
        have hnm := scorePostings_norms_lookup F
          ((1 + F.lg ((qcnt : ℕ) : ℚ)) * idfVal F idx.n_docs ((dlookup term idx.df).getD 0))
          (idfVal F idx.n_docs ((dlookup term idx.df).getD 0))
          idx ps scores norms d
        rw [hnm]
        have hshare : sharesIn idx d ((term, qcnt) :: rest) =
            (dmem d ps || sharesIn idx d rest) := by
          simp [sharesIn, hlv, dmem]
        cases hn : dlookup d norms with
        | some v => simp
        | none =>
          cases hdp : dmem d ps with
          | true => simp [hdp, hshare]
          | false => simp [hdp, hshare]

/-- C1: on an index satisfying the invariants, the score map of `search`
assigns a score to exactly the documents sharing at least one term with the
query, and that score is the spec formula: the sum over query terms of
`(1 + ln tf_q) * idf(t) * (1 + ln tf_d) * idf(t)` — query terms absent from
the corpus contributing zero — multiplied by
`1 / sqrt(max(1, document_length))`, for every abstract interpretation of
`ln` and `1/sqrt`. -/
theorem c1_search_score_formula (F : FloatOps R) (idx : TfidfIndex) (q : Str)
    (h : Invariant idx) (d : Str) :
    dlookup d (searchScores F idx q) =
      (if sharesQueryTerm idx q d then some (specScore F idx q d) else none) := by
  rw [searchScores]
  rw [show (applyNorm (scoreTerms F idx (countTf (tokenize q)) [] []).1
        (scoreTerms F idx (countTf (tokenize q)) [] []).2) =
      ((scoreTerms F idx (countTf (tokenize q)) [] []).1.map (fun e =>
        (e.1, e.2 * ((dlookup e.1
          (scoreTerms F idx (countTf (tokenize q)) [] []).2).getD 1)))) from rfl]
  rw [dlookup_map_value d
    (fun k v => v * ((dlookup k (scoreTerms F idx (countTf (tokenize q)) [] []).2).getD 1))]
  rw [scoreTerms_scores_lookup F idx (countTf (tokenize q)) [] [] h.wf.bucketNodup d]
  rw [scoreTerms_norms_lookup F idx (countTf (tokenize q)) [] [] d]
  rw [sharesQueryTerm, specScore]
  cases hs : sharesIn idx d (countTf (tokenize q)) with
  | true =>
    simp only [dlookup_nil, Option.isSome_none, Bool.false_eq_true, false_or, hs,
      if_true, Option.getD_none, Option.getD_some, Option.map_some, zero_add]
    rfl
  | false =>
    simp [hs]

theorem invariant_idxTie : Invariant idxTie :=
  invariant_add_text _ _ _ _ (invariant_add_text _ _ _ _ invariant_emptyIndex)

theorem c1_search_score_formula_witness :
    dlookup ("a".toList) (searchScores F0i idxTie ("x".toList)) =
      (if sharesQueryTerm idxTie ("x".toList) ("a".toList)
       then some (specScore F0i idxTie ("x".toList) ("a".toList)) else none) :=
  c1_search_score_formula F0i idxTie ("x".toList) invariant_idxTie ("a".toList)

/-! ### Passage snippets (claim C8) -/

theorem passageSnippet_length_le (t : Str) : (passageSnippet t).length ≤ 221 := by
  rw [passageSnippet]
  by_cases ht : t.length ≤ 220
  · rw [if_pos ht]
    omega
  · rw [if_neg ht]
    have h1 : (rstripStr (t.take 220)).length ≤ (t.take 220).length := by
      rw [rstripStr]
      calc ((t.take 220).reverse.dropWhile isPyWs).reverse.length
          = ((t.take 220).reverse.dropWhile isPyWs).length := by
            rw [List.length_reverse]
        _ ≤ (t.take 220).reverse.length := (List.dropWhile_sublist _).length_le
        _ = (t.take 220).length := List.length_reverse _
    have h2 : (t.take 220).length ≤ 220 := by
      simp [List.length_take]
    simp only [List.length_append, List.length_cons, List.length_nil]
    omega

theorem mem_rerank_fields {K : Type} [LinearOrderedField K]
    (passages : List (Passage K)) (qt : List Str) (p : Passage K)
    (hp : p ∈ rerankByProximity passages qt) :
    ∃ p0 ∈ passages, p.snippet = p0.snippet ∧ p.text = p0.text := by
  simp only [rerankByProximity] at hp
  by_cases hq : dedupKeepOrder qt = []
  · rw [if_pos hq] at hp
    exact ⟨p, hp, rfl, rfl⟩
  · rw [if_neg hq] at hp
    rcases List.mem_map.1 hp with ⟨p0, hp0, hpe⟩
    exact ⟨p0, hp0, by rw [← hpe], by rw [← hpe]⟩

theorem mem_passages_snippet {K : Type} [LinearOrderedField K]
    (hits : List (Hit K)) (idx : TfidfIndex) (qt : List Str) (pc po : ℕ)
    (p : Passage K)
    (hp : p ∈ hits.filterMap (fun h =>
      match dlookup h.doc_id idx.docs with
      | none => none
      | some doc =>
        let r := extractPassage doc.text qt pc po
        some { doc_id := h.doc_id, source := doc.meta.source,
               title := doc.meta.title, tags := doc.meta.tags,
               score := h.score, start := r.1, stop := r.2.1,
               text := r.2.2, snippet := passageSnippet r.2.2 })) :
    p.snippet = passageSnippet p.text := by
  rcases List.mem_filterMap.1 hp with ⟨h, hh, heq⟩
  cases hdoc : dlookup h.doc_id idx.docs with
  | none => rw [hdoc] at heq; cases heq
  | some doc =>
    rw [hdoc] at heq
    simp only [Option.some.injEq] at heq
    rw [← heq]

theorem retrieve_mem_snippet {K : Type} [LinearOrderedField K] (F : FloatOps K)
    (idx : TfidfIndex) (q : Str) (k : ℕ) (filters : Option Filters)
    (pc po : ℕ) (er : Bool) (p : Passage K)
    (hp : p ∈ retrieve F idx q k filters pc po er) :
    p.snippet = passageSnippet p.text := by
  simp only [retrieve] at hp
  split_ifs at hp with hg hpe her
  · exact absurd hp (List.not_mem_nil p)
  · exact absurd hp (List.not_mem_nil p)
  · have hp3 := (pySortDescBy_perm (fun p : Passage K => p.score) _).mem_iff.1
      (List.mem_of_mem_take hp)
    rcases mem_rerank_fields _ _ p hp3 with ⟨p0, hp0, h1, h2⟩
    rw [h1, h2]
    exact mem_passages_snippet _ idx _ pc po p0 hp0
  · have hp3 := (pySortDescBy_perm (fun p : Passage K => p.score) _).mem_iff.1
      (List.mem_of_mem_take hp)
    exact mem_passages_snippet _ idx _ pc po p hp3

set_option maxRecDepth 20000 in
/-- C8 counterexample: retrieving from an index holding a single
221-character-word document with that word as the query returns one passage
whose snippet is 221 characters long (220 characters plus the appended
ellipsis), so the stated 220-character bound is false. -/
theorem c8_snippet_length_counterexample :
    (retrieve F0z idxLong longWord 3 none 350 60 false).map
      (fun p => p.snippet.length) = [221] ∧
    ¬ (∀ p ∈ retrieve F0z idxLong longWord 3 none 350 60 false,
        p.snippet.length ≤ 220) := by
  have h1 : (retrieve F0z idxLong longWord 3 none 350 60 false).map
      (fun p => p.snippet.length) = [221] := by decide
  refine ⟨h1, ?_⟩
  intro hall
  cases hret : retrieve F0z idxLong longWord 3 none 350 60 false with
  | nil => rw [hret] at h1; simp at h1
  | cons p rest =>
    have hp := hall p (by rw [hret]; exact List.mem_cons_self p rest)
    rw [hret] at h1
    simp only [List.map] at h1
    have h221 : p.snippet.length = 221 := by
      have hh := congrArg (fun l => l.headD 0) h1
      simpa using hh
    omega

/-- C8 amended: every passage returned by `retrieve` has
`snippet = passageSnippet text`: the snippet equals the passage text when
that text is at most 220 characters long, and otherwise is the first 220
characters with trailing whitespace stripped and a one-character ellipsis
appended — hence at most 221 characters, not 220. -/
theorem c8_snippet_amended {K : Type} [LinearOrderedField K] (F : FloatOps K)
    (idx : TfidfIndex) (q : Str) (k : ℕ) (filters : Option Filters)
    (pc po : ℕ) (er : Bool) (p : Passage K)
    (hp : p ∈ retrieve F idx q k filters pc po er) :
    p.snippet = passageSnippet p.text ∧ p.snippet.length ≤ 221 ∧
    (p.text.length ≤ 220 → p.snippet = p.text) ∧
    (220 < p.text.length →
      p.snippet = rstripStr (p.text.take 220) ++ [hellip]) := by
  have hs := retrieve_mem_snippet F idx q k filters pc po er p hp
  refine ⟨hs, ?_, ?_, ?_⟩
  · rw [hs]
    exact passageSnippet_length_le p.text
  · intro hle
    rw [hs, passageSnippet, if_pos hle]
  · intro hgt
    rw [hs, passageSnippet, if_neg (by omega)]

theorem c8_snippet_amended_witness :
    ((retrieve F0z idxGreet ("world".toList) 5 none 350 60 false).headD
        dfltPassage).snippet =
      passageSnippet ((retrieve F0z idxGreet ("world".toList) 5 none 350 60
        false).headD dfltPassage).text :=
  (c8_snippet_amended F0z idxGreet ("world".toList) 5 none 350 60 false
    ((retrieve F0z idxGreet ("world".toList) 5 none 350 60 false).headD
      dfltPassage) (by decide)).1

/-! ### Idempotence of re-ingestion (claim C5) -/

theorem dmem_eq_true_iff {β : Type} (k : Str) (l : List (Str × β)) :
    dmem k l = true ↔ k ∈ dkeys l := by
  rw [dmem]
  exact dlookup_isSome_iff_mem_dkeys k l

theorem dmem_eq_false_iff {β : Type} (k : Str) (l : List (Str × β)) :
    dmem k l = false ↔ k ∉ dkeys l := by
  rw [← dmem_eq_true_iff]
  cases dmem k l <;> simp

theorem extEq_refl (a : TfidfIndex) : ExtEq a a :=
  ⟨fun _ => rfl, fun _ _ => rfl, fun _ => rfl, rfl⟩

theorem add_text_eq_addFreshState (idx : TfidfIndex) (i txt : Str) (m : DocMeta)
    (htxt : txt ≠ []) (htok : tokenize txt ≠ []) :
    add_text idx i txt m =
      addFreshState (if dmem i idx.docs then removeDocTerms idx i else idx) i
        ⟨m, (tokenize txt).length, txt⟩ (countTf (tokenize txt)) := by
  simp [add_text, htxt, htok, addFreshState]

theorem idx_fresh_after_removal (idx : TfidfIndex) (i : Str) (h : Invariant idx) :
    Invariant (if dmem i idx.docs then removeDocTerms idx i else idx) ∧
    i ∉ dkeys (if dmem i idx.docs then removeDocTerms idx i else idx).docs ∧
    (∀ t ps, dlookup t (if dmem i idx.docs then removeDocTerms idx i else idx).inv
      = some ps → i ∉ dkeys ps) := by
  cases hdm : dmem i idx.docs with
  | true =>
    simp only [if_true]
    have hfr := removeDocTerms_fresh idx i h
    exact ⟨invariant_removeDocTerms idx i h, hfr.1, hfr.2⟩
  | false =>
    simp only [Bool.false_eq_true, if_false]
    refine ⟨h, (dmem_eq_false_iff i idx.docs).1 hdm, ?_⟩
    intro t ps hlook hmem
    exact (dmem_eq_false_iff i idx.docs).1 hdm (h.closed t ps hlook i hmem)

theorem removeDocTerms_addFreshState (S0 : TfidfIndex) (i : Str) (rec : DocRec)
    (tf : List (Str × ℕ)) (htf : (dkeys tf).Nodup) (h : Invariant S0)
    (hfd : i ∉ dkeys S0.docs)
    (hfp : ∀ t ps, dlookup t S0.inv = some ps → i ∉ dkeys ps) :
    (removeDocTerms (addFreshState S0 i rec tf) i).docs = S0.docs ∧
    (∀ t, dlookup t (removeDocTerms (addFreshState S0 i rec tf) i).inv
      = dlookup t S0.inv) ∧
    (∀ t, t ∉ dkeys tf →
      dlookup t (removeDocTerms (addFreshState S0 i rec tf) i).df
        = dlookup t (addFreshState S0 i rec tf).df) := by
  have hdm : dmem i (addFreshState S0 i rec tf).docs = true := by
    simp [addFreshState, dmem]
  have hinv1 : (dkeys (addFreshState S0 i rec tf).inv).Nodup :=
    (addPostings_nodup i tf S0.inv S0.df h.wf.invNodup h.wf.dfNodup).1
  have hdf1 : (dkeys (addFreshState S0 i rec tf).df).Nodup :=
    (addPostings_nodup i tf S0.inv S0.df h.wf.invNodup h.wf.dfNodup).2
  refine ⟨?_, ?_, ?_⟩
  · simp only [removeDocTerms, hdm, not_true_eq_false, if_false]
    simp only [addFreshState]
    exact derase_dinsert_of_not_mem i rec S0.docs hfd
  · intro t
    simp only [removeDocTerms, hdm, not_true_eq_false, if_false]
    rw [(removePostings_lookup i (addFreshState S0 i rec tf).inv
      (addFreshState S0 i rec tf).df t hinv1 hdf1).1]
    have hS1 : dlookup t (addFreshState S0 i rec tf).inv =
        (match dlookup t tf with
         | some cnt => some (dinsert i cnt ((dlookup t S0.inv).getD []))
         | none => dlookup t S0.inv) :=
      (addPostings_lookup i tf S0.inv S0.df htf t).1
    rw [hS1]
    cases hc : dlookup t tf with
    | some cnt =>
      cases hb : dlookup t S0.inv with
      | none =>
        have hib : i ∉ dkeys ([] : List (Str × ℕ)) := by simp [dkeys]
        simp [dmem, derase_dinsert_of_not_mem i cnt ([] : List (Str × ℕ)) hib, hb]
      | some ps0 =>
        have hib : i ∉ dkeys ps0 := hfp t ps0 hb
        have hne := h.bucketNe t ps0 hb
        simp [dmem, derase_dinsert_of_not_mem i cnt ps0 hib, hne, hb]
    | none =>
      cases hb : dlookup t S0.inv with
      | none => simp
      | some ps0 =>
        have hib : dmem i ps0 = false := (dmem_eq_false_iff i ps0).2 (hfp t ps0 hb)
        simp [hib]
  · intro t htf0
    simp only [removeDocTerms, hdm, not_true_eq_false, if_false]
    rw [(removePostings_lookup i (addFreshState S0 i rec tf).inv
      (addFreshState S0 i rec tf).df t hinv1 hdf1).2]
    have hc : dlookup t tf = none := (dlookup_eq_none_iff t tf).2 htf0
    have hS1 : dlookup t (addFreshState S0 i rec tf).inv = dlookup t S0.inv := by
      have hx := (addPostings_lookup i tf S0.inv S0.df htf t).1
      rw [hc] at hx
      simpa [addFreshState] using hx
    rw [hS1]
    cases hb : dlookup t S0.inv with
    | none => simp
    | some ps0 =>
      have hib : dmem i ps0 = false := (dmem_eq_false_iff i ps0).2 (hfp t ps0 hb)
      simp [hib]

/-- C5: on any index satisfying the invariants, calling `add_text` twice in
succession with identical arguments leaves the stored documents, every
term's posting counts, `df` and `n_docs` identical (as Python dict equality
observes them) to their values after the first call. -/
theorem c5_add_text_idempotent (idx : TfidfIndex) (i txt : Str) (m : DocMeta)
    (h : Invariant idx) :
    ExtEq (add_text (add_text idx i txt m) i txt m) (add_text idx i txt m) := by
  by_cases htxt : txt = []
  · simp only [add_text, htxt, if_pos rfl]
    exact extEq_refl idx
  · by_cases htok : tokenize txt = []
    · have hS1 : add_text idx i txt m =
          (if dmem i idx.docs then removeDocTerms idx i else idx) := by
        simp [add_text, htxt, htok]
      have hfr := idx_fresh_after_removal idx i h
      have hdm : dmem i (add_text idx i txt m).docs = false := by
        rw [hS1]
        exact (dmem_eq_false_iff _ _).2 hfr.2.1
      have hgen : ∀ S : TfidfIndex, dmem i S.docs = false → add_text S i txt m = S := by
        intro S hS
        simp [add_text, htxt, htok, hS]
      rw [hgen _ hdm]
      exact extEq_refl _
    · have hfr := idx_fresh_after_removal idx i h
      have htf := countTf_dkeys_nodup (tokenize txt)
      have heq1 := add_text_eq_addFreshState idx i txt m htxt htok
      have hrm := removeDocTerms_addFreshState
        (if dmem i idx.docs then removeDocTerms idx i else idx) i
        ⟨m, (tokenize txt).length, txt⟩ (countTf (tokenize txt)) htf
        hfr.1 hfr.2.1 hfr.2.2
      have hdm1 : dmem i (addFreshState
          (if dmem i idx.docs then removeDocTerms idx i else idx) i
          ⟨m, (tokenize txt).length, txt⟩ (countTf (tokenize txt))).docs = true := by
        simp [addFreshState, dmem]
      have heq2 : add_text (add_text idx i txt m) i txt m =
          addFreshState (removeDocTerms (addFreshState
            (if dmem i idx.docs then removeDocTerms idx i else idx) i
            ⟨m, (tokenize txt).length, txt⟩ (countTf (tokenize txt))) i) i
            ⟨m, (tokenize txt).length, txt⟩ (countTf (tokenize txt)) := by
        rw [heq1]
        rw [add_text_eq_addFreshState
          (addFreshState (if dmem i idx.docs then removeDocTerms idx i else idx) i
            ⟨m, (tokenize txt).length, txt⟩ (countTf (tokenize txt))) i txt m htxt htok]
        rw [if_pos hdm1]
      rw [heq2, heq1]
      set S0 := if dmem i idx.docs then removeDocTerms idx i else idx with hS0
      set rec : DocRec := ⟨m, (tokenize txt).length, txt⟩ with hrec
      set tf := countTf (tokenize txt) with htfdef
      set R1 := removeDocTerms (addFreshState S0 i rec tf) i with hR1
      refine ⟨?_, ?_, ?_, ?_⟩
      · intro d
        simp only [addFreshState, hrm.1]
      · intro t d
        have hA := (addPostings_lookup i tf R1.inv R1.df htf t).1
        have hB := (addPostings_lookup i tf S0.inv S0.df htf t).1
        simp only [addFreshState]
        rw [hA, hB]
        cases hc : dlookup t tf with
        | some cnt => rw [hrm.2.1 t]
        | none => rw [hrm.2.1 t]
      · intro t
        have hA := (addPostings_lookup i tf R1.inv R1.df htf t).2
        have hB := (addPostings_lookup i tf S0.inv S0.df htf t).2
        simp only [addFreshState]
        rw [hA, hB]
        cases hc : dlookup t tf with
        | some cnt => rw [hrm.2.1 t]
        | none =>
          simp only [hc]
          have hmem : t ∉ dkeys tf := (dlookup_eq_none_iff t tf).1 hc
          have hthis := hrm.2.2 t hmem
          simp only [addFreshState] at hthis
          rw [hthis, hB]
          simp only [hc]
      · simp only [addFreshState, hrm.1]

theorem c5_add_text_idempotent_witness :
    ExtEq (add_text (add_text emptyIndex ("d".toList) ("hello world".toList) metaA)
        ("d".toList) ("hello world".toList) metaA)
      (add_text emptyIndex ("d".toList) ("hello world".toList) metaA) :=
  c5_add_text_idempotent emptyIndex ("d".toList) ("hello world".toList) metaA
    invariant_emptyIndex

/-! ### Tie-breaking in search results (claim C4) -/

/-- C4 counterexample: in an index where document `"b"` was ingested before
document `"a"` with identical one-word content, a query for that word
returns two hits with equal scores in the order `["b", "a"]` — descending,
not ascending, lexical doc-id order — so the claim is false as stated. -/
theorem c4_tie_order_counterexample :
    (search F0i idxTie ("x".toList) 5).map (fun h => h.doc_id) =
      [("b".toList), ("a".toList)] ∧
    (search F0i idxTie ("x".toList) 5).map (fun h => h.score) = [1, 1] ∧
    strLt ("a".toList) ("b".toList) = true := by
  refine ⟨by decide, by decide, by decide⟩

/-- C4 amended: `search` sorts by score descending with a stable sort and
no secondary key; ties therefore appear in the order in which the documents
first accumulated score (the insertion order of the score map), not in
lexical doc-id order.  For a fixed index and query the result is the value
of a pure function, hence identical across repeated runs. -/
theorem c4_tie_order_amended (F : FloatOps R) (idx : TfidfIndex) (q : Str) (k : ℕ) :
    (searchRanked F idx q k).Pairwise (fun a b => b.2 ≤ a.2) ∧
    (∀ a b : Str × R, a.2 = b.2 →
      List.Sublist [a, b] (searchRanked F idx q k) →
      List.Sublist [a, b] (searchScores F idx q)) ∧
    search F idx q k = if tokenize q = [] ∨ idx.n_docs = 0 then []
      else (searchRanked F idx q k).map (mkHit F idx (tokenize q)) := by
  refine ⟨?_, ?_, rfl⟩
  · exact (pySortDescBy_pairwise (fun e : Str × R => e.2)
      (searchScores F idx q)).sublist (List.take_sublist _ _)
  · intro a b hab hsub
    have hsort : List.Sublist [a, b]
        (pySortDescBy (fun e : Str × R => e.2) (searchScores F idx q)) :=
      hsub.trans (List.take_sublist _ _)
    have hnd : (searchScores F idx q).Nodup :=
      nodup_of_dkeys_nodup _ (searchScores_dkeys_nodup F idx q)
    have hndsort : (pySortDescBy (fun e : Str × R => e.2)
        (searchScores F idx q)).Nodup :=
      (pySortDescBy_perm (fun e : Str × R => e.2) _).nodup_iff.2 hnd
    have hne : a ≠ b := by
      intro heq
      subst heq
      have hdup : ([a, a] : List (Str × R)).Nodup := hndsort.sublist hsort
      simp at hdup
    have hamem : a ∈ searchScores F idx q :=
      (pySortDescBy_perm (fun e : Str × R => e.2) _).mem_iff.1
        (hsort.subset (by simp))
    have hbmem : b ∈ searchScores F idx q :=
      (pySortDescBy_perm (fun e : Str × R => e.2) _).mem_iff.1
        (hsort.subset (by simp))
    rcases two_mem_order a b _ hamem hbmem hne with h | h
    · exact h
    · exfalso
      have hrev : List.Sublist [b, a]
          (pySortDescBy (fun e : Str × R => e.2) (searchScores F idx q)) :=
        pySortDescBy_stable (fun e : Str × R => e.2) b a _ hab.symm h
      exact not_both_orders a b _ hndsort hne hsort hrev

theorem c4_tie_order_amended_witness :
    List.Sublist [(("b".toList), (1 : ℤ)), (("a".toList), (1 : ℤ))]
      (searchScores F0i idxTie ("x".toList)) :=
  (c4_tie_order_amended F0i idxTie ("x".toList) 5).2.1
    (("b".toList), (1 : ℤ)) (("a".toList), (1 : ℤ)) rfl (by decide)

end TfidfRag